import Mathlib

/-!
Verification of the coin-basket game solver and state model of
`src/app.js` ("fill your basket" / game of chests).

The file embeds, as executable Lean definitions:

* the terminal win rule (`endGame` in the single-player app, the
  `phase === 'finished'` branch in the multiplayer app): sort the three
  basket sums descending, the placer wins iff the top sum strictly
  exceeds the second;
* the adversarial solver `canForceWinGivenOffer` (embedded with an
  explicit fuel argument: the JS recursion consumes one coin of
  `remaining` per level, so its depth is exactly `remaining.length`,
  which is the fuel the wrapper supplies);
* the move chooser `aiChooseCoinForOffer`;
* the single-player state machine (`newGame`, `offerBasket`, `doPlace`);
* the multiplayer transactional state machine (`initialState`, the
  offer transaction of the offers click handler, `placeCoinTransaction`);
* the memoized solver (`stateKey`, the global `memo` map threaded
  explicitly) and an explicit array store modelling the `slice`/`filter`
  copies the solver builds, used for the frame property.

Game arrays are embedded as `List Nat`; the JS expression
`arr[i] += c` on the freshly sliced sums array is `List.set i
(getD i 0 + c)` (basket indices are always 0..2 and `sums` always has
length 3 in the data model, so `getD`'s default is never consulted in
any reachable use).
-/

/-- Outcome of a finished game, as named by the spec. -/
inductive Winner where
  | PlacerWins
  | PresenterWins
deriving DecidableEq, Repr

/-- Embedding of `arr.slice().sort((a,b)=>b-a)`: the sums sorted in
descending order. -/
def sortDesc (l : List Nat) : List Nat :=
  List.insertionSort (fun a b => b ≤ a) l

/-- Embedding of the win rule applied by `endGame` (src/app.js lines
118-131): with the sums sorted descending as `s1 ≥ s2 ≥ s3`, the placer
wins iff `s1 > s2`, otherwise the presenter wins. -/
def evaluateTerminal (sums : List Nat) : Winner :=
  if (sortDesc sums).getD 1 0 < (sortDesc sums).getD 0 0 then
    Winner.PlacerWins
  else
    Winner.PresenterWins

/-- Boolean form of the terminal evaluation, as inlined inside
`canForceWinGivenOffer` (`const res = s1 > s2`). -/
def evalPlacerWin (sums : List Nat) : Bool :=
  decide ((sortDesc sums).getD 1 0 < (sortDesc sums).getD 0 0)

/-- Embedding of `const newSums = state.sums.slice(); newSums[offeredIdx]
+= c`. -/
def placeSums (sums : List Nat) (offeredIdx c : Nat) : List Nat :=
  sums.set offeredIdx (sums.getD offeredIdx 0 + c)

/-- Fueled embedding of `canForceWinGivenOffer` (src/app.js lines
168-229), with the memoization stripped (the memoized version is
`cfwMemoF` below; memoization transparency is proved separately).
The JS function recurses with `remaining` shrunk by one coin per level,
so fuel `remaining.length` (supplied by `canForceWinGivenOffer`) always
suffices; the fuel-0-with-coins-left branch is unreachable in that use. -/
def canForceWinFuel : Nat → List Nat → List Nat → Nat → Nat → Bool
  | 0, sums, remaining, _, _ =>
    if remaining.isEmpty then evalPlacerWin sums else false
  | fuel + 1, sums, remaining, turn, offeredIdx =>
    if remaining.isEmpty then evalPlacerWin sums
    else
      remaining.any fun c =>
        let newSums := placeSums sums offeredIdx c
        let newRemaining := remaining.filter fun x => x ≠ c
        let newTurn := turn + 1
        if 4 ≤ newTurn then evalPlacerWin newSums
        else
          (List.range 3).all fun nextOff =>
            canForceWinFuel fuel newSums newRemaining newTurn nextOff

/-- The solver `canForceWinGivenOffer(state, offeredIdx)` as a pure
function of `(sums, remaining, turn, offeredIdx)`. -/
def canForceWinGivenOffer (sums remaining : List Nat) (turn offeredIdx : Nat) : Bool :=
  canForceWinFuel remaining.length sums remaining turn offeredIdx

/-- The per-coin success test of `aiChooseCoinForOffer` (src/app.js lines
238-256): placing `c` into the offered basket either ends the game with a
placer win, or leaves a position where `canForceWinGivenOffer` holds for
all three next offers. -/
def forcingCoinB (sums remaining : List Nat) (turn offeredIdx c : Nat) : Bool :=
  let newSums := placeSums sums offeredIdx c
  let newRemaining := remaining.filter fun x => x ≠ c
  let newTurn := turn + 1
  if 4 ≤ newTurn then evalPlacerWin newSums
  else
    (List.range 3).all fun nextOff =>
      canForceWinGivenOffer newSums newRemaining newTurn nextOff

/-- Embedding of `aiChooseCoinForOffer` (src/app.js lines 234-260): scan
`state.remaining` in its enumeration order and return the first coin
whose placement forces a win; if none does, fall back to
`Math.max(...state.remaining)` (embedded as a `foldl` of `Nat.max`;
`remaining` is non-empty whenever the function is invoked). -/
def aiChooseCoinForOffer (sums remaining : List Nat) (turn offeredIdx : Nat) : Nat :=
  match remaining.find? (forcingCoinB sums remaining turn offeredIdx) with
  | some c => c
  | none => remaining.foldl Nat.max 0

/-- The success condition for one candidate coin, in propositional form:
placing `c` into the offered basket either terminates the game (the 4th
placement) with a placer win, or leaves the placer with a forced win
against every next offer the presenter can make. -/
def ForcingCoin (sums remaining : List Nat) (turn offeredIdx c : Nat) : Prop :=
  (turn + 1 = 4 ∧ evaluateTerminal (placeSums sums offeredIdx c) = Winner.PlacerWins) ∨
  (turn + 1 < 4 ∧ ∀ nextOff < 3,
      canForceWinGivenOffer (placeSums sums offeredIdx c)
        (remaining.filter fun x => x ≠ c) (turn + 1) nextOff = true)

/-! ### Single-player state machine (src/app.js lines 31-116)

The DOM-only fields (`baskets`, the move list) are display data the
solver and the invariants never consult; they are omitted from the
embedded state. -/

/-- The mutable single-player game state of src/app.js. -/
structure SPState where
  sums : List Nat
  remainingCoins : List Nat
  turn : Nat
  awaitingOffer : Bool
  currentOffered : Option Nat
deriving DecidableEq, Repr

/-- Embedding of `newGame()` (src/app.js lines 39-51). -/
def newGame : SPState :=
  { sums := [0, 0, 0], remainingCoins := [1, 2, 3, 4], turn := 0,
    awaitingOffer := true, currentOffered := none }

/-- Embedding of `offerBasket(idx)` (src/app.js lines 75-90): a no-op
unless an offer is awaited. -/
def offerBasket (sp : SPState) (idx : Nat) : SPState :=
  if ¬ sp.awaitingOffer then sp
  else { sp with currentOffered := some idx, awaitingOffer := false }

/-- Embedding of `doPlace(v, idx)` (src/app.js lines 93-116): rejects
silently (state unchanged) when an offer is still awaited or the coin is
not remaining; otherwise adds the coin to the offered basket's sum,
removes it from the remaining coins and advances the turn.  `sums[idx]
+= v` is the same indexed update `placeSums` performs on a copy. -/
def doPlace (sp : SPState) (v idx : Nat) : SPState :=
  if sp.awaitingOffer then sp
  else if v ∈ sp.remainingCoins then
    { sums := placeSums sp.sums idx v,
      remainingCoins := sp.remainingCoins.filter fun x => x ≠ v,
      turn := sp.turn + 1,
      awaitingOffer := if 4 ≤ sp.turn + 1 then false else true,
      currentOffered := none }
  else sp

/-- States the single-player driver can reach: `newGame`, then
alternating offers and placements.  Offers carry an index taken from the
three basket buttons (data-index 0..2); a placement targets the pending
offer's basket, as both the click handler (`doPlace(val, currentOffered)`)
and the AI path do. -/
inductive ReachableSP : SPState → Prop where
  | init : ReachableSP newGame
  | offer (sp : SPState) (idx : Nat) :
      ReachableSP sp → idx < 3 → ReachableSP (offerBasket sp idx)
  | place (sp : SPState) (v idx : Nat) :
      ReachableSP sp → sp.currentOffered = some idx → ReachableSP (doPlace sp v idx)

/-! ### Multiplayer transactional state machine (src/app.js, multiplayer
part)

`baskets` and `moves` are display-only and omitted.  The Firebase
`runTransaction` aborts on a thrown error and leaves the stored state
unchanged; `runOffer`/`runPlace` embed that abort semantics.  The role
checks (`room.presenter !== uid`, `roomData.placer !== uid`) are
abstracted into a boolean argument. -/

/-- The `phase` field of the shared room state. -/
inductive Phase where
  | waiting
  | offering
  | placing
  | finished
deriving DecidableEq, Repr

/-- The shared multiplayer game state stored under `rooms/<id>/state`. -/
structure MPState where
  sums : List Nat
  remaining : List Nat
  turn : Nat
  currentOffered : Option Nat
  phase : Phase
  coinCount : Nat
deriving DecidableEq, Repr

/-- Embedding of `initialState(coinCount)` (multiplayer part):
`remaining` is `[1, ..., coinCount]`. -/
def initialState (coinCount : Nat) : MPState :=
  { sums := [0, 0, 0], remaining := List.range' 1 coinCount, turn := 0,
    currentOffered := none, phase := Phase.waiting, coinCount := coinCount }

/-- Embedding of the JS default `cur.coinCount || 4`. -/
def coinCountOr4 (n : Nat) : Nat := if n = 0 then 4 else n

/-- The errors the offer transaction throws; `alreadyOffered` and
`gameFinished` are the spec's `InvalidOffer` kinds. -/
inductive OfferError where
  | notPresenter
  | alreadyOffered
  | gameFinished
deriving DecidableEq, Repr

/-- The errors `placeCoinTransaction` throws; `noBasketOffered` and
`coinNotAvailable` are the spec's `InvalidPlacement` kinds. -/
inductive PlaceError where
  | noBasketOffered
  | notThePlacer
  | coinNotAvailable
deriving DecidableEq, Repr

/-- Embedding of the offer click handler's transaction body (multiplayer
part): reject unless the caller is the presenter, no offer is pending,
and the game is not finished. -/
def offerTransaction (isPresenter : Bool) (s : MPState) (idx : Nat) :
    Except OfferError MPState :=
  if ¬ isPresenter then Except.error OfferError.notPresenter
  else
    match s.currentOffered with
    | some _ => Except.error OfferError.alreadyOffered
    | none =>
      if coinCountOr4 s.coinCount ≤ s.turn then Except.error OfferError.gameFinished
      else Except.ok { s with currentOffered := some idx, phase := Phase.placing }

/-- Embedding of `placeCoinTransaction(coin)`'s transaction body
(multiplayer part): requires a pending offer, the placer role, and an
available coin; places the coin into the offered basket, removes it,
advances the turn, clears the offer and updates the phase. -/
def placeCoinTransaction (isPlacer : Bool) (s : MPState) (coin : Nat) :
    Except PlaceError MPState :=
  match s.currentOffered with
  | none => Except.error PlaceError.noBasketOffered
  | some idx =>
    if ¬ isPlacer then Except.error PlaceError.notThePlacer
    else if coin ∈ s.remaining then
      Except.ok { s with
        sums := placeSums s.sums idx coin,
        remaining := s.remaining.filter fun x => x ≠ coin,
        turn := s.turn + 1,
        currentOffered := none,
        phase := if coinCountOr4 s.coinCount ≤ s.turn + 1 then Phase.finished
                 else Phase.offering }
    else Except.error PlaceError.coinNotAvailable

/-- Abort semantics of `runTransaction` for an offer: a thrown error
leaves the stored state unchanged. -/
def runOffer (isPresenter : Bool) (s : MPState) (idx : Nat) : MPState :=
  match offerTransaction isPresenter s idx with
  | Except.ok s2 => s2
  | Except.error _ => s

/-- Abort semantics of `runTransaction` for a placement: a thrown error
leaves the stored state unchanged. -/
def runPlace (isPlacer : Bool) (s : MPState) (coin : Nat) : MPState :=
  match placeCoinTransaction isPlacer s coin with
  | Except.ok s2 => s2
  | Except.error _ => s

/-! ### Memoized solver (src/app.js lines 159-229)

`stateKey` renders the string
`"${sums[0]},${sums[1]},${sums[2]}|${mask}|${turn}|${offered}"`.  On the
length-3 sums arrays of the data model the string is injective in the
tuple `(sums, mask, turn, offered)`, which is how the key is embedded.
The global `memo` `Map` is embedded as an association list threaded
through the computation; `Map.set` conses a binding (lookup returns the
newest one, which is `Map`'s lookup behaviour when all bindings for one
key agree — exactly what memoization transparency proves). -/

/-- Embedding of the remaining-coins bitmask of `stateKey`:
`mask |= 1 << (c-1)` for each remaining coin.  Coin values are in
`[1, N]`, `N ≤ 10`, so the JS 32-bit shift never wraps and the plain
`Nat` shift is exact. -/
def maskOfRemaining (remaining : List Nat) : Nat :=
  remaining.foldl (fun mask c => mask ||| (1 <<< (c - 1))) 0

/-- Embedding of `stateKey(sumsArr, remainingArr, turnVal, offeredIdx)`. -/
def stateKey (sums remaining : List Nat) (turn offeredIdx : Nat) :
    List Nat × Nat × Nat × Nat :=
  (sums, maskOfRemaining remaining, turn, offeredIdx)

/-- The memoization cache: newest binding first. -/
def Memo : Type := List ((List Nat × Nat × Nat × Nat) × Bool)

/-- Cache lookup (`memo.has(key)` / `memo.get(key)`). -/
def memoFind (m : Memo) (key : List Nat × Nat × Nat × Nat) : Option Bool :=
  (List.find? (fun e => e.1 = key) m).map (fun e => e.2)

/-- Cache update (`memo.set(key, res)`). -/
def memoSet (m : Memo) (key : List Nat × Nat × Nat × Nat) (res : Bool) : Memo :=
  (key, res) :: m

/-- Fueled embedding of the memoized `canForceWinGivenOffer`, threading
the cache explicitly.  The two `foldl`s mirror the coin loop and the
inner next-offer loop; an early `return`/`break` is modelled by carrying
the decision flag and skipping the remaining iterations (the skipped
iterations have no effect in the JS either). -/
def cfwMemoF : Nat → Memo → List Nat → List Nat → Nat → Nat → Bool × Memo
  | 0, memo, sums, remaining, turn, offeredIdx =>
    let key := stateKey sums remaining turn offeredIdx
    match memoFind memo key with
    | some b => (b, memo)
    | none =>
      if remaining.isEmpty then
        (evalPlacerWin sums, memoSet memo key (evalPlacerWin sums))
      else (false, memo)
  | fuel + 1, memo, sums, remaining, turn, offeredIdx =>
    let key := stateKey sums remaining turn offeredIdx
    match memoFind memo key with
    | some b => (b, memo)
    | none =>
      if remaining.isEmpty then
        (evalPlacerWin sums, memoSet memo key (evalPlacerWin sums))
      else
        let scan := remaining.foldl (fun acc c =>
          if acc.1 then acc
          else
            let newSums := placeSums sums offeredIdx c
            let newRemaining := remaining.filter fun x => x ≠ c
            let newTurn := turn + 1
            if 4 ≤ newTurn then (evalPlacerWin newSums, acc.2)
            else
              (List.range 3).foldl (fun acc2 nextOff =>
                if acc2.1 then
                  cfwMemoF fuel acc2.2 newSums newRemaining newTurn nextOff
                else acc2) (true, acc.2)) (false, memo)
        (scan.1, memoSet scan.2 key scan.1)

/-- The memoized solver entry point: cache in, result and cache out. -/
def canForceWinMemo (memo : Memo) (sums remaining : List Nat)
    (turn offeredIdx : Nat) : Bool × Memo :=
  cfwMemoF remaining.length memo sums remaining turn offeredIdx

/-- Embedding of `aiChooseCoinForOffer` with the cache threaded through
its `canForceWinGivenOffer` calls (the JS version reads and grows the
same global `memo`). -/
def aiChooseMemo (memo : Memo) (sums remaining : List Nat)
    (turn offeredIdx : Nat) : Nat × Memo :=
  let scan := remaining.foldl (fun acc c =>
    match acc.1 with
    | some chosen => (some chosen, acc.2)
    | none =>
      let newSums := placeSums sums offeredIdx c
      let newRemaining := remaining.filter fun x => x ≠ c
      let newTurn := turn + 1
      if 4 ≤ newTurn then
        (if evalPlacerWin newSums then some c else none, acc.2)
      else
        let inner := (List.range 3).foldl (fun acc2 nextOff =>
          if acc2.1 then
            canForceWinMemo acc2.2 newSums newRemaining newTurn nextOff
          else acc2) (true, acc.2)
        (if inner.1 then some c else none, inner.2)) ((none : Option Nat), memo)
  match scan.1 with
  | some c => (c, scan.2)
  | none => (remaining.foldl Nat.max 0, scan.2)

/-- A cache is accurate when every binding it returns for a data-model
key (length-3 sums, coin values ≥ 1) is the value the un-memoized solver
computes for that key. -/
def MemoAccurate (m : Memo) : Prop :=
  ∀ sums remaining turn offeredIdx bv,
    sums.length = 3 → (∀ c ∈ remaining, 1 ≤ c) →
    memoFind m (stateKey sums remaining turn offeredIdx) = some bv →
    bv = canForceWinGivenOffer sums remaining turn offeredIdx

/-! ### Array store (frame property)

Models the JS arrays the solver touches: a store of arrays addressed by
id, where `slice()` and `filter()` allocate fresh ids and the only
write (`newSums[offeredIdx] += c`) targets an id the call itself just
allocated.  `cfwStore`/`aiChooseStore` re-embed the solver and chooser
against this store so that "the caller's arrays are never mutated" is a
statement, not a modelling assumption. -/

/-- A store of arrays addressed by index; allocation appends. -/
structure Store where
  arrs : List (List Nat)

/-- Dereference an array id. -/
def Store.read (σ : Store) (i : Nat) : List Nat := σ.arrs.getD i []

/-- Allocate a fresh array holding `v`; returns the store and the id. -/
def Store.alloc (σ : Store) (v : List Nat) : Store × Nat :=
  (⟨σ.arrs ++ [v]⟩, σ.arrs.length)

/-- Overwrite the array at id `i`. -/
def Store.write (σ : Store) (i : Nat) (v : List Nat) : Store :=
  ⟨σ.arrs.set i v⟩

/-- `σ2` preserves `σ1`: it has at least the same ids and reads the same
array at each of them. -/
def Store.Preserves (σ2 σ1 : Store) : Prop :=
  σ1.arrs.length ≤ σ2.arrs.length ∧ ∀ i < σ1.arrs.length, σ2.read i = σ1.read i

/-- The successor-state construction each solver iteration performs
against the store: `newSums = state.sums.slice()` (a fresh allocation),
the single in-place write `newSums[offeredIdx] += c` targeting that fresh
array, and `newRemaining = state.remaining.filter(x => x !== c)` (a
second fresh allocation).  Returns the store and the two fresh ids
`(newSumsId, newRemainingId)`. -/
def storePlaceAux (σ0 : Store) (sumsId remId offeredIdx c : Nat) :
    Store × Nat × Nat :=
  let p1 := σ0.alloc (σ0.read sumsId)
  let nsId := p1.2
  let σ2 := p1.1.write nsId
    ((p1.1.read nsId).set offeredIdx ((p1.1.read nsId).getD offeredIdx 0 + c))
  let p2 := σ2.alloc ((σ2.read remId).filter fun x => x ≠ c)
  (p2.1, nsId, p2.2)

/-- One iteration of the solver's coin loop against the store,
parameterized by the recursive continuation `rec` (the solver at the next
depth): build the successor arrays via `storePlaceAux`, then either
evaluate the terminal position (allocating the `slice().sort()` copy) or
run the next-offer loop on the fresh ids. -/
def cfwStoreStep (rec : Store → Nat → Nat → Nat → Nat → Bool × Store)
    (sumsId remId turn offeredIdx : Nat) (acc : Bool × Store) (c : Nat) :
    Bool × Store :=
  if acc.1 then acc
  else
    let aux := storePlaceAux acc.2 sumsId remId offeredIdx c
    if 4 ≤ turn + 1 then
      (evalPlacerWin (aux.1.read aux.2.1),
        (aux.1.alloc (sortDesc (aux.1.read aux.2.1))).1)
    else
      (List.range 3).foldl (fun acc2 nextOff =>
        if acc2.1 then rec acc2.2 aux.2.1 aux.2.2 (turn + 1) nextOff
        else acc2) (true, aux.1)

/-- The solver against the array store: `sumsId`/`remId` are the caller's
arrays; every iteration builds the successor arrays via `storePlaceAux`
(fresh ids only), and recursion descends into the fresh ids.  The
terminal evaluation allocates the `slice().sort()` temporary.  The
result boolean equals the pure solver's (see `cfwStore_correct`). -/
def cfwStore : Nat → Store → Nat → Nat → Nat → Nat → Bool × Store
  | 0, σ, sumsId, remId, _, _ =>
    if (σ.read remId).isEmpty then
      (evalPlacerWin (σ.read sumsId), (σ.alloc (sortDesc (σ.read sumsId))).1)
    else (false, σ)
  | fuel + 1, σ, sumsId, remId, turn, offeredIdx =>
    if (σ.read remId).isEmpty then
      (evalPlacerWin (σ.read sumsId), (σ.alloc (sortDesc (σ.read sumsId))).1)
    else
      (σ.read remId).foldl
        (cfwStoreStep (cfwStore fuel) sumsId remId turn offeredIdx) (false, σ)

/-- One iteration of the chooser's coin loop against the store,
parameterized by the recursive continuation `rec` (the solver run on the
freshly allocated successor arrays). -/
def aiChooseStoreStep (rec : Store → Nat → Nat → Nat → Nat → Bool × Store)
    (sumsId remId turn offeredIdx : Nat) (acc : Option Nat × Store) (c : Nat) :
    Option Nat × Store :=
  match acc.1 with
  | some chosen => (some chosen, acc.2)
  | none =>
    let aux := storePlaceAux acc.2 sumsId remId offeredIdx c
    if 4 ≤ turn + 1 then
      (if evalPlacerWin (aux.1.read aux.2.1) then some c else none,
        (aux.1.alloc (sortDesc (aux.1.read aux.2.1))).1)
    else
      let inner := (List.range 3).foldl (fun acc2 nextOff =>
        if acc2.1 then rec acc2.2 aux.2.1 aux.2.2 (turn + 1) nextOff
        else acc2) (true, aux.1)
      (if inner.1 then some c else none, inner.2)

/-- The chooser against the array store, mirroring `aiChooseCoinForOffer`
(its `canForceWinGivenOffer` calls run `cfwStore` on the freshly
allocated successor arrays). -/
def aiChooseStore (fuel : Nat) (σ : Store) (sumsId remId : Nat)
    (turn offeredIdx : Nat) : Nat × Store :=
  let scan := (σ.read remId).foldl
    (aiChooseStoreStep (cfwStore fuel) sumsId remId turn offeredIdx)
    ((none : Option Nat), σ)
  match scan.1 with
  | some c => (c, scan.2)
  | none => ((scan.2.read remId).foldl Nat.max 0, scan.2)

/-! ## Basic lemmas about the solver -/

theorem canForceWinFuel_nil (fuel : Nat) (sums : List Nat) (turn offeredIdx : Nat) :
    canForceWinFuel fuel sums [] turn offeredIdx = evalPlacerWin sums := by
  cases fuel <;> simp [canForceWinFuel]

theorem evalPlacerWin_iff (sums : List Nat) :
    evalPlacerWin sums = true ↔ evaluateTerminal sums = Winner.PlacerWins := by
  unfold evalPlacerWin evaluateTerminal
  by_cases h : (sortDesc sums).getD 1 0 < (sortDesc sums).getD 0 0 <;> simp [h]

theorem length_filter_ne_lt {c : Nat} {r : List Nat} (hc : c ∈ r) :
    (r.filter fun x => x ≠ c).length < r.length := by
  induction r with
  | nil => cases hc
  | cons a r ih =>
    by_cases hac : a = c
    · subst hac
      have hstep : List.filter (fun x => x ≠ a) (a :: r) =
          List.filter (fun x => x ≠ a) r := by simp
      rw [hstep, List.length_cons]
      exact Nat.lt_succ_of_le (List.length_filter_le _ r)
    · have hcr : c ∈ r := by
        rcases List.mem_cons.mp hc with h | h
        · exact absurd h.symm hac
        · exact h
      have hstep : List.filter (fun x => x ≠ c) (a :: r) =
          a :: List.filter (fun x => x ≠ c) r := by simp [hac]
      rw [hstep, List.length_cons, List.length_cons]
      exact Nat.succ_lt_succ (ih hcr)

theorem list_any_congr {α : Type} {f g : α → Bool} :
    ∀ {l : List α}, (∀ x ∈ l, f x = g x) → l.any f = l.any g := by
  intro l
  induction l with
  | nil => intro _; rfl
  | cons a l ih =>
    intro h
    simp only [List.any_cons]
    rw [h a (List.mem_cons_self a l), ih fun x hx => h x (List.mem_cons_of_mem a hx)]

theorem list_all_congr {α : Type} {f g : α → Bool} :
    ∀ {l : List α}, (∀ x ∈ l, f x = g x) → l.all f = l.all g := by
  intro l
  induction l with
  | nil => intro _; rfl
  | cons a l ih =>
    intro h
    simp only [List.all_cons]
    rw [h a (List.mem_cons_self a l), ih fun x hx => h x (List.mem_cons_of_mem a hx)]

theorem canForceWinFuel_succ_unfold (g : Nat) (sums r : List Nat) (t b : Nat)
    (hne : r ≠ []) :
    canForceWinFuel (g + 1) sums r t b =
      r.any fun c =>
        if 4 ≤ t + 1 then evalPlacerWin (placeSums sums b c)
        else (List.range 3).all fun nextOff =>
          canForceWinFuel g (placeSums sums b c) (r.filter fun x => x ≠ c)
            (t + 1) nextOff := by
  cases r with
  | nil => exact absurd rfl hne
  | cons c0 rt => simp [canForceWinFuel]

theorem canForceWinFuel_congr :
    ∀ (f1 f2 : Nat) (sums r1 r2 : List Nat) (t b : Nat),
      r1.length ≤ f1 → r2.length ≤ f2 → (∀ x, x ∈ r1 ↔ x ∈ r2) →
      canForceWinFuel f1 sums r1 t b = canForceWinFuel f2 sums r2 t b := by
  intro f1
  induction f1 with
  | zero =>
    intro f2 sums r1 r2 t b h1 h2 hset
    have hr1 : r1 = [] := List.length_eq_zero.mp (Nat.le_zero.mp h1)
    subst hr1
    have hr2 : r2 = [] := by
      cases r2 with
      | nil => rfl
      | cons x xs => exact absurd ((hset x).mpr (List.mem_cons_self x xs)) (by simp)
    subst hr2
    rw [canForceWinFuel_nil, canForceWinFuel_nil]
  | succ g ih =>
    intro f2 sums r1 r2 t b h1 h2 hset
    cases r1 with
    | nil =>
      have hr2 : r2 = [] := by
        cases r2 with
        | nil => rfl
        | cons x xs => exact absurd ((hset x).mpr (List.mem_cons_self x xs)) (by simp)
      subst hr2
      rw [canForceWinFuel_nil, canForceWinFuel_nil]
    | cons c0 r1t =>
      cases r2 with
      | nil => exact absurd ((hset c0).mp (List.mem_cons_self c0 r1t)) (by simp)
      | cons c2 r2t =>
        cases f2 with
        | zero => exact absurd h2 (by simp)
        | succ g2 =>
          rw [canForceWinFuel_succ_unfold g sums (c0 :: r1t) t b (by simp),
            canForceWinFuel_succ_unfold g2 sums (c2 :: r2t) t b (by simp)]
          have key : ∀ c, c ∈ c0 :: r1t → c ∈ c2 :: r2t →
              (if 4 ≤ t + 1 then evalPlacerWin (placeSums sums b c)
               else (List.range 3).all fun nextOff =>
                 canForceWinFuel g (placeSums sums b c)
                   ((c0 :: r1t).filter fun x => x ≠ c) (t + 1) nextOff) =
              (if 4 ≤ t + 1 then evalPlacerWin (placeSums sums b c)
               else (List.range 3).all fun nextOff =>
                 canForceWinFuel g2 (placeSums sums b c)
                   ((c2 :: r2t).filter fun x => x ≠ c) (t + 1) nextOff) := by
            intro c hc1 hc2
            by_cases h4 : 4 ≤ t + 1
            · simp [h4]
            · simp only [h4, if_false]
              apply list_all_congr
              intro nextOff _
              apply ih g2 (placeSums sums b c) _ _ (t + 1) nextOff
              · have := length_filter_ne_lt hc1
                simp only [List.length_cons] at this h1
                omega
              · have := length_filter_ne_lt hc2
                simp only [List.length_cons] at this h2
                omega
              · intro x
                simp only [List.mem_filter, decide_eq_true_eq]
                exact and_congr_left fun _ => hset x
          rw [Bool.eq_iff_iff, List.any_eq_true, List.any_eq_true]
          constructor
          · rintro ⟨c, hc, hP⟩
            exact ⟨c, (hset c).mp hc, by rw [← key c hc ((hset c).mp hc)]; exact hP⟩
          · rintro ⟨c, hc, hP⟩
            exact ⟨c, (hset c).mpr hc, by rw [key c ((hset c).mpr hc) hc]; exact hP⟩

theorem canForceWinFuel_adequate (fuel : Nat) (sums r : List Nat) (t b : Nat)
    (h : r.length ≤ fuel) :
    canForceWinFuel fuel sums r t b = canForceWinGivenOffer sums r t b :=
  canForceWinFuel_congr fuel r.length sums r r t b h le_rfl fun _ => Iff.rfl

theorem canForceWin_sameSet (sums r1 r2 : List Nat) (t b : Nat)
    (hset : ∀ x, x ∈ r1 ↔ x ∈ r2) :
    canForceWinGivenOffer sums r1 t b = canForceWinGivenOffer sums r2 t b :=
  canForceWinFuel_congr r1.length r2.length sums r1 r2 t b le_rfl le_rfl hset

theorem canForceWin_any (sums r : List Nat) (t b : Nat) (hne : r ≠ []) :
    canForceWinGivenOffer sums r t b = r.any (forcingCoinB sums r t b) := by
  cases r with
  | nil => exact absurd rfl hne
  | cons c0 rt =>
    unfold canForceWinGivenOffer
    rw [List.length_cons, canForceWinFuel_succ_unfold rt.length sums (c0 :: rt) t b (by simp)]
    apply list_any_congr
    intro c hc
    unfold forcingCoinB
    by_cases h4 : 4 ≤ t + 1
    · simp [h4]
    · simp only [h4, if_false]
      apply list_all_congr
      intro nextOff _
      apply canForceWinFuel_congr
      · have := length_filter_ne_lt hc
        simp only [List.length_cons] at this
        omega
      · exact le_rfl
      · intro x
        exact Iff.rfl

theorem forcingCoinB_iff (sums r : List Nat) (t b c : Nat) (ht : t < 4) :
    forcingCoinB sums r t b c = true ↔ ForcingCoin sums r t b c := by
  unfold forcingCoinB ForcingCoin
  by_cases h4 : 4 ≤ t + 1
  · have ht4 : t + 1 = 4 := by omega
    simp [h4, ht4, evalPlacerWin_iff]
  · have hne4 : ¬ t + 1 = 4 := by omega
    have hlt : t + 1 < 4 := by omega
    simp [h4, hne4, hlt, List.all_eq_true, List.mem_range]

/-! ## Claim C1 -/

/-- C1: for a non-terminal state with an offer pending on basket `b`,
`canForceWinGivenOffer` is true iff some remaining coin `c`, placed into
`b`, either ends the game with `PlacerWins` or leaves a position where
`canForceWinGivenOffer` holds for every next offer `b2 < 3`; it is false
exactly when no such coin exists. -/
theorem canForceWin_iff_exists_forcing (sums r : List Nat) (t b : Nat)
    (hne : r ≠ []) (ht : t < 4) :
    canForceWinGivenOffer sums r t b = true ↔
      ∃ c ∈ r, ForcingCoin sums r t b c := by
  rw [canForceWin_any sums r t b hne, List.any_eq_true]
  exact exists_congr fun c => and_congr_right fun _ => forcingCoinB_iff sums r t b c ht

/-- Witness for C1 at the opening state. -/
theorem canForceWin_iff_exists_forcing_witness :
    ([1, 2, 3, 4] : List Nat) ≠ [] ∧ (0 : Nat) < 4 ∧
      (canForceWinGivenOffer [0, 0, 0] [1, 2, 3, 4] 0 0 = true ↔
        ∃ c ∈ ([1, 2, 3, 4] : List Nat), ForcingCoin [0, 0, 0] [1, 2, 3, 4] 0 0 c) :=
  ⟨by decide, by decide,
    canForceWin_iff_exists_forcing [0, 0, 0] [1, 2, 3, 4] 0 0 (by decide) (by decide)⟩

/-! ## Claim C2 -/

/-- C2: the terminal evaluation is `PlacerWins` iff the three sums have a
unique (strict) maximum; any tie for the top, including a three-way tie,
gives `PresenterWins`; in particular `[5,5,3]` is a presenter win and
`[7,5,3]` a placer win. -/
theorem evaluateTerminal_spec (a b c : Nat) :
    (evaluateTerminal [a, b, c] = Winner.PlacerWins ↔
      ((b < a ∧ c < a) ∨ (a < b ∧ c < b) ∨ (a < c ∧ b < c))) ∧
    (evaluateTerminal [a, b, c] = Winner.PresenterWins ↔
      ¬ ((b < a ∧ c < a) ∨ (a < b ∧ c < b) ∨ (a < c ∧ b < c))) ∧
    evaluateTerminal [5, 5, 3] = Winner.PresenterWins ∧
    evaluateTerminal [7, 5, 3] = Winner.PlacerWins := by
  refine ⟨?_, ?_, by decide, by decide⟩ <;>
  · unfold evaluateTerminal sortDesc
    simp only [List.insertionSort, List.orderedInsert]
    by_cases hba : b ≤ a <;> by_cases hca : c ≤ a <;> by_cases hcb : c ≤ b <;>
      simp [hba, hca, hcb] <;> omega

/-! ## Claim C3 -/

/-- C3: from the initial N=4 state with basket 0 offered, the chooser
returns a coin after which the placer can force a win against every next
offer (the standard opening is solvable by the placer). -/
theorem openingSolvable :
    aiChooseCoinForOffer [0, 0, 0] [1, 2, 3, 4] 0 0 ∈ ([1, 2, 3, 4] : List Nat) ∧
    ∀ b2 < 3, canForceWinGivenOffer
        (placeSums [0, 0, 0] 0 (aiChooseCoinForOffer [0, 0, 0] [1, 2, 3, 4] 0 0))
        ([1, 2, 3, 4].filter fun x => x ≠ aiChooseCoinForOffer [0, 0, 0] [1, 2, 3, 4] 0 0)
        1 b2 = true := by decide

/-! ## Claim C6 -/

/-- C6 counterexample: invoked on an already-terminal state (empty
`remaining`, turn 4) the solver does not fail — the guard returns the
terminal evaluation as an ordinary boolean. -/
theorem canForceWin_terminal_counterexample :
    canForceWinGivenOffer [7, 5, 3] [] 4 0 = true ∧
    canForceWinGivenOffer [5, 5, 3] [] 4 0 = false := by decide

/-- C6 amended: on a terminal state (no remaining coins) the solver's
guard returns the terminal evaluation (true iff the placer wins the
final position) instead of raising an error. -/
theorem canForceWin_terminal_guard (sums : List Nat) (turn offeredIdx : Nat) :
    canForceWinGivenOffer sums [] turn offeredIdx =
      decide (evaluateTerminal sums = Winner.PlacerWins) := by
  unfold canForceWinGivenOffer
  rw [List.length_nil, canForceWinFuel_nil]
  by_cases h : evaluateTerminal sums = Winner.PlacerWins
  · simp [h, (evalPlacerWin_iff sums).mpr h]
  · have hb : evalPlacerWin sums = false := by
      cases hb : evalPlacerWin sums
      · rfl
      · exact absurd ((evalPlacerWin_iff sums).mp hb) h
    simp [h, hb]

/-! ## Claim C4 -/

theorem find?_split {α : Type} {p : α → Bool} :
    ∀ {l : List α} {c : α}, l.find? p = some c →
      ∃ l1 l2, l = l1 ++ c :: l2 ∧ p c = true ∧ ∀ x ∈ l1, p x = false := by
  intro l
  induction l with
  | nil => intro c h; cases h
  | cons a l ih =>
    intro c h
    cases hpa : p a with
    | true =>
      rw [List.find?_cons, hpa] at h
      cases h
      exact ⟨[], l, rfl, hpa, by intro x hx; cases hx⟩
    | false =>
      rw [List.find?_cons, hpa] at h
      obtain ⟨l1, l2, heq, hc, hprev⟩ := ih h
      refine ⟨a :: l1, l2, by rw [heq]; rfl, hc, ?_⟩
      intro x hx
      rcases List.mem_cons.mp hx with h1 | h1
      · rw [h1]; exact hpa
      · exact hprev x h1

theorem foldl_max_init (l : List Nat) : ∀ a : Nat, a ≤ l.foldl Nat.max a := by
  induction l with
  | nil => intro a; exact le_rfl
  | cons x l ih =>
    intro a
    simp only [List.foldl_cons]
    exact le_trans (Nat.le_max_left a x) (ih (Nat.max a x))

theorem foldl_max_ge (l : List Nat) : ∀ (a : Nat), ∀ x ∈ l, x ≤ l.foldl Nat.max a := by
  induction l with
  | nil => intro a x hx; cases hx
  | cons y l ih =>
    intro a x hx
    simp only [List.foldl_cons]
    rcases List.mem_cons.mp hx with h | h
    · rw [h]
      exact le_trans (Nat.le_max_right a y) (foldl_max_init l (Nat.max a y))
    · exact ih (Nat.max a y) x h

theorem foldl_max_mem (l : List Nat) :
    ∀ a : Nat, l.foldl Nat.max a = a ∨ l.foldl Nat.max a ∈ l := by
  induction l with
  | nil => intro a; exact Or.inl rfl
  | cons x l ih =>
    intro a
    simp only [List.foldl_cons]
    rcases ih (Nat.max a x) with h | h
    · have hmc : Nat.max a x = a ∨ Nat.max a x = x := by
        rcases Nat.le_total a x with hle | hle
        · exact Or.inr (Nat.max_eq_right hle)
        · exact Or.inl (Nat.max_eq_left hle)
      rcases hmc with hm | hm
      · exact Or.inl (h.trans hm)
      · exact Or.inr (by rw [h, hm]; exact List.mem_cons_self x l)
    · exact Or.inr (List.mem_cons_of_mem x h)

theorem foldl_max_zero_mem {l : List Nat} (hne : l ≠ []) : l.foldl Nat.max 0 ∈ l := by
  rcases foldl_max_mem l 0 with h | h
  · cases l with
    | nil => exact absurd rfl hne
    | cons x l =>
      have hx : x ≤ List.foldl Nat.max 0 (x :: l) :=
        foldl_max_ge (x :: l) 0 x (List.mem_cons_self x l)
      rw [h] at hx
      rw [h, ← Nat.le_zero.mp hx]
      exact List.mem_cons_self x l
  · exact h

/-- C4 counterexample: with `remaining = [2, 1]` both coins are forcing
(each ends the game with a placer win), so the first coin in increasing
coin-value order is 1, yet the chooser returns 2 — it follows the array's
enumeration order, not increasing coin-value order. -/
theorem aiChoose_order_counterexample :
    aiChooseCoinForOffer [10, 0, 0] [2, 1] 3 0 = 2 ∧
    forcingCoinB [10, 0, 0] [2, 1] 3 0 1 = true ∧
    forcingCoinB [10, 0, 0] [2, 1] 3 0 2 = true ∧
    (1 : Nat) < 2 := by decide

/-- C4 amended: the chooser returns the first coin in the enumeration
order of `state.remaining` (which coincides with increasing coin-value
order whenever `remaining` is ascending, as in every reachable state)
whose placement forces a win; if no remaining coin forces a win it
returns the numerically largest remaining coin. -/
theorem aiChoose_spec (sums r : List Nat) (t b : Nat) (hne : r ≠ []) (ht : t < 4) :
    (∃ l1 l2, r = l1 ++ aiChooseCoinForOffer sums r t b :: l2 ∧
        ForcingCoin sums r t b (aiChooseCoinForOffer sums r t b) ∧
        ∀ x ∈ l1, ¬ ForcingCoin sums r t b x) ∨
    ((∀ x ∈ r, ¬ ForcingCoin sums r t b x) ∧
      aiChooseCoinForOffer sums r t b ∈ r ∧
      ∀ x ∈ r, x ≤ aiChooseCoinForOffer sums r t b) := by
  cases hfind : r.find? (forcingCoinB sums r t b) with
  | some c =>
    have hd : aiChooseCoinForOffer sums r t b = c := by
      unfold aiChooseCoinForOffer
      rw [hfind]
    left
    rw [hd]
    obtain ⟨l1, l2, heq, hc, hprev⟩ := find?_split hfind
    refine ⟨l1, l2, heq, (forcingCoinB_iff sums r t b c ht).mp hc, ?_⟩
    intro x hx hF
    have hfalse := hprev x hx
    rw [(forcingCoinB_iff sums r t b x ht).mpr hF] at hfalse
    cases hfalse
  | none =>
    have hd : aiChooseCoinForOffer sums r t b = r.foldl Nat.max 0 := by
      unfold aiChooseCoinForOffer
      rw [hfind]
    right
    rw [hd]
    have hall := List.find?_eq_none.mp hfind
    exact ⟨fun x hx hF => hall x hx ((forcingCoinB_iff sums r t b x ht).mpr hF),
      foldl_max_zero_mem hne, fun x hx => foldl_max_ge r 0 x hx⟩

/-- Witness for the amended C4 at the opening state. -/
theorem aiChoose_spec_witness :
    ([1, 2, 3, 4] : List Nat) ≠ [] ∧ (0 : Nat) < 4 ∧
    ((∃ l1 l2, ([1, 2, 3, 4] : List Nat) = l1 ++ aiChooseCoinForOffer [0, 0, 0] [1, 2, 3, 4] 0 0 :: l2 ∧
        ForcingCoin [0, 0, 0] [1, 2, 3, 4] 0 0 (aiChooseCoinForOffer [0, 0, 0] [1, 2, 3, 4] 0 0) ∧
        ∀ x ∈ l1, ¬ ForcingCoin [0, 0, 0] [1, 2, 3, 4] 0 0 x) ∨
      ((∀ x ∈ ([1, 2, 3, 4] : List Nat), ¬ ForcingCoin [0, 0, 0] [1, 2, 3, 4] 0 0 x) ∧
        aiChooseCoinForOffer [0, 0, 0] [1, 2, 3, 4] 0 0 ∈ ([1, 2, 3, 4] : List Nat) ∧
        ∀ x ∈ ([1, 2, 3, 4] : List Nat), x ≤ aiChooseCoinForOffer [0, 0, 0] [1, 2, 3, 4] 0 0)) :=
  ⟨by decide, by decide, aiChoose_spec [0, 0, 0] [1, 2, 3, 4] 0 0 (by decide) (by decide)⟩

/-! ## Claim C7 -/

/-- C7: placing a coin that is not remaining, or placing with no offer
pending, makes the transaction throw (the spec's `InvalidPlacement`
kinds: `noBasketOffered` / `coinNotAvailable`) and the aborted
transaction leaves the stored state unchanged. -/
theorem placeCoin_invalid (s : MPState) (coin : Nat)
    (h : coin ∉ s.remaining ∨ s.currentOffered = none) :
    (∃ e, placeCoinTransaction true s coin = Except.error e ∧
      (e = PlaceError.noBasketOffered ∨ e = PlaceError.coinNotAvailable)) ∧
    runPlace true s coin = s := by
  cases hoff : s.currentOffered with
  | none =>
    refine ⟨⟨PlaceError.noBasketOffered, ?_, Or.inl rfl⟩, ?_⟩ <;>
      simp [placeCoinTransaction, runPlace, hoff]
  | some idx =>
    have hcoin : coin ∉ s.remaining := by
      rcases h with h | h
      · exact h
      · rw [hoff] at h; cases h
    refine ⟨⟨PlaceError.coinNotAvailable, ?_, Or.inr rfl⟩, ?_⟩ <;>
      simp [placeCoinTransaction, runPlace, hoff, hcoin]

/-- Witness for C7: placing with no offer pending in a fresh room. -/
theorem placeCoin_invalid_witness :
    ((1 : Nat) ∉ (initialState 4).remaining ∨ (initialState 4).currentOffered = none) ∧
    (∃ e, placeCoinTransaction true (initialState 4) 1 = Except.error e ∧
      (e = PlaceError.noBasketOffered ∨ e = PlaceError.coinNotAvailable)) ∧
    runPlace true (initialState 4) 1 = initialState 4 :=
  ⟨Or.inr rfl, (placeCoin_invalid (initialState 4) 1 (Or.inr rfl)).1,
    (placeCoin_invalid (initialState 4) 1 (Or.inr rfl)).2⟩

/-! ## Claim C8 -/

/-- C8: offering twice in a row without an intervening placement makes
the second offer transaction throw `alreadyOffered`, and offering on a
finished game (or with an offer pending) throws one of the spec's
`InvalidOffer` kinds; the aborted transaction has no effect on the
state. -/
theorem offer_invalid (s s2 : MPState) (i j : Nat) :
    (offerTransaction true s i = Except.ok s2 →
      offerTransaction true s2 j = Except.error OfferError.alreadyOffered ∧
      runOffer true s2 j = s2) ∧
    (s.currentOffered ≠ none ∨ coinCountOr4 s.coinCount ≤ s.turn →
      (∃ e, offerTransaction true s i = Except.error e ∧
        (e = OfferError.alreadyOffered ∨ e = OfferError.gameFinished)) ∧
      runOffer true s i = s) := by
  constructor
  · intro hok
    have h2 : s2.currentOffered = some i := by
      unfold offerTransaction at hok
      simp only [Bool.not_true, decide_not] at hok
      cases hoff : s.currentOffered with
      | some k => rw [hoff] at hok; simp at hok
      | none =>
        rw [hoff] at hok
        by_cases hturn : coinCountOr4 s.coinCount ≤ s.turn
        · simp [hturn] at hok
        · simp only [hturn, if_false, ite_false] at hok
          have := Except.ok.inj hok
          rw [← this]
    constructor
    · unfold offerTransaction
      rw [h2]
      simp
    · unfold runOffer offerTransaction
      rw [h2]
      simp
  · intro h
    cases hoff : s.currentOffered with
    | some k =>
      refine ⟨⟨OfferError.alreadyOffered, ?_, Or.inl rfl⟩, ?_⟩ <;>
        simp [offerTransaction, runOffer, hoff]
    | none =>
      have hturn : coinCountOr4 s.coinCount ≤ s.turn := by
        rcases h with h | h
        · exact absurd hoff h
        · exact h
      refine ⟨⟨OfferError.gameFinished, ?_, Or.inr rfl⟩, ?_⟩ <;>
        simp [offerTransaction, runOffer, hoff, hturn]

/-- Witness for C8: a fresh room accepts an offer on basket 0, then
rejects the immediately following offer on basket 1. -/
theorem offer_invalid_witness :
    offerTransaction true (initialState 4) 0 =
      Except.ok { initialState 4 with currentOffered := some 0, phase := Phase.placing } ∧
    offerTransaction true
        { initialState 4 with currentOffered := some 0, phase := Phase.placing } 1 =
      Except.error OfferError.alreadyOffered ∧
    runOffer true
        { initialState 4 with currentOffered := some 0, phase := Phase.placing } 1 =
      { initialState 4 with currentOffered := some 0, phase := Phase.placing } := by
  have hok : offerTransaction true (initialState 4) 0 =
      Except.ok { initialState 4 with currentOffered := some 0, phase := Phase.placing } := by
    simp [offerTransaction, initialState, coinCountOr4]
  exact ⟨hok,
    ((offer_invalid (initialState 4)
        { initialState 4 with currentOffered := some 0, phase := Phase.placing } 0 1).1 hok).1,
    ((offer_invalid (initialState 4)
        { initialState 4 with currentOffered := some 0, phase := Phase.placing } 0 1).1 hok).2⟩

/-! ## Claim C9 -/

theorem sum_set_getD_add : ∀ (l : List Nat) (i v : Nat), i < l.length →
    (l.set i (l.getD i 0 + v)).sum = l.sum + v := by
  intro l
  induction l with
  | nil => intro i v h; cases h
  | cons x l ih =>
    intro i v h
    cases i with
    | zero => simp [List.sum_cons]; omega
    | succ i =>
      simp only [List.set_cons_succ, List.getD_cons_succ, List.sum_cons]
      rw [ih i v (by simpa using h)]
      omega

theorem filter_ne_nodup_length {v : Nat} :
    ∀ {l : List Nat}, l.Nodup → v ∈ l →
      (l.filter fun x => x ≠ v).length + 1 = l.length := by
  intro l
  induction l with
  | nil => intro _ hv; cases hv
  | cons a l ih =>
    intro hnd hv
    obtain ⟨hna, hndl⟩ := List.nodup_cons.mp hnd
    by_cases hav : a = v
    · subst hav
      have hself : List.filter (fun x => x ≠ a) l = l :=
        List.filter_eq_self.mpr fun x hx => by
          simp only [decide_eq_true_eq]
          intro hxa
          exact hna (hxa ▸ hx)
      have hstep : List.filter (fun x => x ≠ a) (a :: l) =
          List.filter (fun x => x ≠ a) l := by simp
      rw [hstep, hself, List.length_cons]
    · have hvl : v ∈ l := by
        rcases List.mem_cons.mp hv with h | h
        · exact absurd h.symm hav
        · exact h
      have hstep : List.filter (fun x => x ≠ v) (a :: l) =
          a :: List.filter (fun x => x ≠ v) l := by simp [hav]
      rw [hstep, List.length_cons, List.length_cons, ← ih hndl hvl]

theorem filter_ne_nodup_sum {v : Nat} :
    ∀ {l : List Nat}, l.Nodup → v ∈ l →
      (l.filter fun x => x ≠ v).sum + v = l.sum := by
  intro l
  induction l with
  | nil => intro _ hv; cases hv
  | cons a l ih =>
    intro hnd hv
    obtain ⟨hna, hndl⟩ := List.nodup_cons.mp hnd
    by_cases hav : a = v
    · subst hav
      have hself : List.filter (fun x => x ≠ a) l = l :=
        List.filter_eq_self.mpr fun x hx => by
          simp only [decide_eq_true_eq]
          intro hxa
          exact hna (hxa ▸ hx)
      have hstep : List.filter (fun x => x ≠ a) (a :: l) =
          List.filter (fun x => x ≠ a) l := by simp
      rw [hstep, hself, List.sum_cons]
      omega
    · have hvl : v ∈ l := by
        rcases List.mem_cons.mp hv with h | h
        · exact absurd h.symm hav
        · exact h
      have hstep : List.filter (fun x => x ≠ v) (a :: l) =
          a :: List.filter (fun x => x ≠ v) l := by simp [hav]
      rw [hstep, List.sum_cons, List.sum_cons, ← ih hndl hvl]
      omega

/-- C9: every reachable single-player state satisfies the data-model
invariant: `turn = 4 - |remaining|`, the basket sums plus the remaining
coin values account for all of `1+2+3+4 = 10` (so `sum(sums)` equals the
sum of the placed coins), and the game is terminal (`turn >= 4`, as the
code tests) exactly when `turn = 4`, equivalently when no coin remains.
The induction shows the initial state satisfies it and each accepted
offer/placement preserves it, moving one coin from `remaining` into the
offered basket's sum while incrementing `turn`. -/
theorem reachable_invariant (sp : SPState) (h : ReachableSP sp) :
    sp.turn = 4 - sp.remainingCoins.length ∧
    sp.sums.sum + sp.remainingCoins.sum = 10 ∧
    (4 ≤ sp.turn ↔ sp.turn = 4) ∧
    (sp.turn = 4 ↔ sp.remainingCoins = []) := by
  suffices H : sp.sums.length = 3 ∧ sp.remainingCoins.Nodup ∧
      sp.turn + sp.remainingCoins.length = 4 ∧
      sp.sums.sum + sp.remainingCoins.sum = 10 ∧
      (∀ i, sp.currentOffered = some i → i < 3) by
    obtain ⟨h1, h2, h3, h4, h5⟩ := H
    refine ⟨by omega, h4, by omega, ?_⟩
    constructor
    · intro ht
      exact List.length_eq_zero.mp (by omega)
    · intro hemp
      rw [hemp] at h3
      simp only [List.length_nil] at h3
      omega
  induction h with
  | init =>
    refine ⟨rfl, ?_, rfl, rfl, ?_⟩
    · decide
    · intro i hi; cases hi
  | offer sp idx hsp hidx ih =>
    obtain ⟨h1, h2, h3, h4, h5⟩ := ih
    unfold offerBasket
    by_cases ha : sp.awaitingOffer
    · rw [if_neg (not_not_intro ha)]
      refine ⟨h1, h2, h3, h4, ?_⟩
      intro i hi
      have hii : idx = i := Option.some.inj hi
      rw [← hii]
      exact hidx
    · rw [if_pos ha]
      exact ⟨h1, h2, h3, h4, h5⟩
  | place sp v idx hsp hoff ih =>
    obtain ⟨h1, h2, h3, h4, h5⟩ := ih
    unfold doPlace
    by_cases ha : sp.awaitingOffer
    · rw [if_pos ha]
      exact ⟨h1, h2, h3, h4, h5⟩
    · rw [if_neg ha]
      by_cases hv : v ∈ sp.remainingCoins
      · rw [if_pos hv]
        dsimp only
        have hidx3 : idx < 3 := h5 idx hoff
        have hflen := filter_ne_nodup_length h2 hv
        have hfsum := filter_ne_nodup_sum h2 hv
        refine ⟨?_, List.Nodup.filter _ h2, by omega, ?_, ?_⟩
        · unfold placeSums
          rw [List.length_set]
          exact h1
        · unfold placeSums
          rw [sum_set_getD_add sp.sums idx v (by omega)]
          omega
        · intro i hi; cases hi
      · rw [if_neg hv]
        exact ⟨h1, h2, h3, h4, h5⟩

/-- Witness for C9 at the initial state. -/
theorem reachable_invariant_witness :
    ReachableSP newGame ∧
    (newGame.turn = 4 - newGame.remainingCoins.length ∧
      newGame.sums.sum + newGame.remainingCoins.sum = 10 ∧
      (4 ≤ newGame.turn ↔ newGame.turn = 4) ∧
      (newGame.turn = 4 ↔ newGame.remainingCoins = [])) :=
  ⟨ReachableSP.init, reachable_invariant newGame ReachableSP.init⟩

/-! ## Claim C5 -/

theorem maskOf_foldl_testBit :
    ∀ (r : List Nat) (acc : Nat) (i : Nat),
      (r.foldl (fun mask c => mask ||| (1 <<< (c - 1))) acc).testBit i =
        (acc.testBit i || r.any fun c => decide (c - 1 = i)) := by
  intro r
  induction r with
  | nil => intro acc i; simp
  | cons c r ih =>
    intro acc i
    simp only [List.foldl_cons, List.any_cons]
    rw [ih, Nat.testBit_lor]
    have hshift : (1 <<< (c - 1)).testBit i = decide (c - 1 = i) := by
      rw [Nat.shiftLeft_eq, one_mul]
      by_cases h : c - 1 = i
      · rw [h]
        simp [Nat.testBit_two_pow_self]
      · rw [Nat.testBit_two_pow_of_ne h]
        simp [h]
    rw [hshift, Bool.or_assoc]

theorem maskOf_testBit (r : List Nat) (hr : ∀ c ∈ r, 1 ≤ c) (i : Nat) :
    (maskOfRemaining r).testBit i = decide ((i + 1) ∈ r) := by
  unfold maskOfRemaining
  rw [maskOf_foldl_testBit]
  simp only [Nat.zero_testBit, Bool.false_or]
  rw [Bool.eq_iff_iff, List.any_eq_true]
  simp only [decide_eq_true_eq]
  constructor
  · rintro ⟨c, hc, hci⟩
    have h1 := hr c hc
    have hcx : c = i + 1 := by omega
    rw [← hcx]
    exact hc
  · intro hmem
    exact ⟨i + 1, hmem, by omega⟩

theorem maskOf_same_set {r1 r2 : List Nat} (h1 : ∀ c ∈ r1, 1 ≤ c)
    (h2 : ∀ c ∈ r2, 1 ≤ c)
    (hm : maskOfRemaining r1 = maskOfRemaining r2) :
    ∀ x, x ∈ r1 ↔ x ∈ r2 := by
  have key : ∀ x, x ∈ r1 → x ∈ r2 := by
    intro x hx
    have hx1 : 1 ≤ x := h1 x hx
    have hsub : x - 1 + 1 = x := by omega
    have hb : (maskOfRemaining r1).testBit (x - 1) = true := by
      rw [maskOf_testBit r1 h1]
      simp only [decide_eq_true_eq, hsub]
      exact hx
    rw [hm, maskOf_testBit r2 h2] at hb
    simp only [decide_eq_true_eq, hsub] at hb
    exact hb
  have key2 : ∀ x, x ∈ r2 → x ∈ r1 := by
    intro x hx
    have hx1 : 1 ≤ x := h2 x hx
    have hsub : x - 1 + 1 = x := by omega
    have hb : (maskOfRemaining r2).testBit (x - 1) = true := by
      rw [maskOf_testBit r2 h2]
      simp only [decide_eq_true_eq, hsub]
      exact hx
    rw [← hm, maskOf_testBit r1 h1] at hb
    simp only [decide_eq_true_eq, hsub] at hb
    exact hb
  exact fun x => ⟨key x, key2 x⟩

theorem memoFind_set (m : Memo) (k k2 : List Nat × Nat × Nat × Nat) (v : Bool) :
    memoFind (memoSet m k v) k2 = if k = k2 then some v else memoFind m k2 := by
  unfold memoFind memoSet
  rw [List.find?_cons]
  by_cases h : k = k2
  · simp [h]
  · simp [h]

theorem memoAccurate_nil : MemoAccurate ([] : Memo) := by
  intro sums r t b bv _ _ hfind
  simp [memoFind] at hfind

theorem memoAccurate_set {m : Memo} (hm : MemoAccurate m)
    (sums r : List Nat) (t b : Nat) (hs : sums.length = 3)
    (hr : ∀ c ∈ r, 1 ≤ c) :
    MemoAccurate (memoSet m (stateKey sums r t b) (canForceWinGivenOffer sums r t b)) := by
  intro s2 r2 t2 b2 bv hs2 hr2 hfind
  rw [memoFind_set] at hfind
  by_cases hk : stateKey sums r t b = stateKey s2 r2 t2 b2
  · rw [if_pos hk] at hfind
    have hbv : bv = canForceWinGivenOffer sums r t b := (Option.some.inj hfind).symm
    unfold stateKey at hk
    simp only [Prod.mk.injEq] at hk
    obtain ⟨hsums, hmask, ht2, hb2⟩ := hk
    subst hsums
    subst ht2
    subst hb2
    rw [hbv]
    exact canForceWin_sameSet sums r r2 t b (maskOf_same_set hr hr2 hmask)
  · rw [if_neg hk] at hfind
    exact hm s2 r2 t2 b2 bv hs2 hr2 hfind

theorem foldl_or_scan {σ α : Type} (P : σ → Prop) (f : α → Bool)
    (step : Bool × σ → α → Bool × σ) :
    ∀ l : List α,
      (∀ m a, a ∈ l → step (true, m) a = (true, m)) →
      (∀ m a, a ∈ l → P m → (step (false, m) a).1 = f a ∧ P (step (false, m) a).2) →
      ∀ acc : Bool × σ, P acc.2 →
        (l.foldl step acc).1 = (acc.1 || l.any f) ∧ P (l.foldl step acc).2 := by
  intro l
  induction l with
  | nil =>
    intro _ _ acc hP
    exact ⟨by simp, hP⟩
  | cons a l ih =>
    intro hskip hstep acc hP
    simp only [List.foldl_cons, List.any_cons]
    rcases acc with ⟨flag, m⟩
    cases flag
    · have h := hstep m a (List.mem_cons_self a l) hP
      have hres := ih (fun m2 x hx => hskip m2 x (List.mem_cons_of_mem a hx))
        (fun m2 x hx hP2 => hstep m2 x (List.mem_cons_of_mem a hx) hP2)
        (step (false, m) a) h.2
      refine ⟨?_, hres.2⟩
      rw [hres.1]
      rcases hp : step (false, m) a with ⟨flag2, m2⟩
      rw [hp] at h
      simp only at h
      rw [h.1]
      simp
    · rw [hskip m a (List.mem_cons_self a l)]
      have hres := ih (fun m2 x hx => hskip m2 x (List.mem_cons_of_mem a hx))
        (fun m2 x hx hP2 => hstep m2 x (List.mem_cons_of_mem a hx) hP2)
        (true, m) hP
      refine ⟨?_, hres.2⟩
      rw [hres.1]
      simp

theorem foldl_and_scan {σ α : Type} (P : σ → Prop) (f : α → Bool)
    (step : Bool × σ → α → Bool × σ) :
    ∀ l : List α,
      (∀ m a, a ∈ l → step (false, m) a = (false, m)) →
      (∀ m a, a ∈ l → P m → (step (true, m) a).1 = f a ∧ P (step (true, m) a).2) →
      ∀ acc : Bool × σ, P acc.2 →
        (l.foldl step acc).1 = (acc.1 && l.all f) ∧ P (l.foldl step acc).2 := by
  intro l
  induction l with
  | nil =>
    intro _ _ acc hP
    exact ⟨by simp, hP⟩
  | cons a l ih =>
    intro hskip hstep acc hP
    simp only [List.foldl_cons, List.all_cons]
    rcases acc with ⟨flag, m⟩
    cases flag
    · rw [hskip m a (List.mem_cons_self a l)]
      have hres := ih (fun m2 x hx => hskip m2 x (List.mem_cons_of_mem a hx))
        (fun m2 x hx hP2 => hstep m2 x (List.mem_cons_of_mem a hx) hP2)
        (false, m) hP
      refine ⟨?_, hres.2⟩
      rw [hres.1]
      simp
    · have h := hstep m a (List.mem_cons_self a l) hP
      have hres := ih (fun m2 x hx => hskip m2 x (List.mem_cons_of_mem a hx))
        (fun m2 x hx hP2 => hstep m2 x (List.mem_cons_of_mem a hx) hP2)
        (step (true, m) a) h.2
      refine ⟨?_, hres.2⟩
      rw [hres.1]
      rcases hp : step (true, m) a with ⟨flag2, m2⟩
      rw [hp] at h
      simp only at h
      rw [h.1]
      simp

theorem foldl_find_scan {σ α : Type} (P : σ → Prop) (f : α → Bool)
    (step : Option α × σ → α → Option α × σ) :
    ∀ l : List α,
      (∀ m x a, a ∈ l → step (some x, m) a = (some x, m)) →
      (∀ m a, a ∈ l → P m →
        (step (none, m) a).1 = (if f a then some a else none) ∧
          P (step (none, m) a).2) →
      ∀ acc : Option α × σ, P acc.2 →
        (l.foldl step acc).1 =
          (match acc.1 with
           | some x => some x
           | none => l.find? f) ∧ P (l.foldl step acc).2 := by
  intro l
  induction l with
  | nil =>
    intro _ _ acc hP
    refine ⟨?_, hP⟩
    rcases acc with ⟨o, m⟩
    cases o <;> simp [List.find?]
  | cons a l ih =>
    intro hskip hstep acc hP
    simp only [List.foldl_cons]
    rcases acc with ⟨o, m⟩
    cases o with
    | some x =>
      rw [hskip m x a (List.mem_cons_self a l)]
      have hres := ih (fun m2 y z hz => hskip m2 y z (List.mem_cons_of_mem a hz))
        (fun m2 z hz hP2 => hstep m2 z (List.mem_cons_of_mem a hz) hP2)
        (some x, m) hP
      exact ⟨hres.1, hres.2⟩
    | none =>
      have h := hstep m a (List.mem_cons_self a l) hP
      have hres := ih (fun m2 y z hz => hskip m2 y z (List.mem_cons_of_mem a hz))
        (fun m2 z hz hP2 => hstep m2 z (List.mem_cons_of_mem a hz) hP2)
        (step (none, m) a) h.2
      refine ⟨?_, hres.2⟩
      rw [hres.1]
      rcases hp : step (none, m) a with ⟨o2, m2⟩
      rw [hp] at h
      simp only at h
      rw [h.1]
      rw [List.find?_cons]
      cases hfa : f a <;> simp [hfa]

theorem canForceWin_nil_eval (sums : List Nat) (t b : Nat) :
    canForceWinGivenOffer sums [] t b = evalPlacerWin sums :=
  canForceWinFuel_nil 0 sums t b

theorem cfwMemoF_hit (fuel : Nat) (memo : Memo) (sums r : List Nat) (t b : Nat)
    (bv : Bool) (hfind : memoFind memo (stateKey sums r t b) = some bv) :
    cfwMemoF fuel memo sums r t b = (bv, memo) := by
  cases fuel <;> simp [cfwMemoF, hfind]

theorem cfwMemoF_miss_nil (fuel : Nat) (memo : Memo) (sums : List Nat) (t b : Nat)
    (hfind : memoFind memo (stateKey sums [] t b) = none) :
    cfwMemoF fuel memo sums [] t b =
      (evalPlacerWin sums,
        memoSet memo (stateKey sums [] t b) (evalPlacerWin sums)) := by
  cases fuel <;> simp [cfwMemoF, hfind]

theorem cfwMemoF_succ_miss (fuel : Nat) (memo : Memo) (sums r : List Nat) (t b : Nat)
    (hfind : memoFind memo (stateKey sums r t b) = none) (hne : r ≠ []) :
    cfwMemoF (fuel + 1) memo sums r t b =
      ((r.foldl (fun acc c =>
          if acc.1 then acc
          else
            if 4 ≤ t + 1 then (evalPlacerWin (placeSums sums b c), acc.2)
            else
              (List.range 3).foldl (fun acc2 nextOff =>
                if acc2.1 then
                  cfwMemoF fuel acc2.2 (placeSums sums b c)
                    (r.filter fun x => x ≠ c) (t + 1) nextOff
                else acc2) (true, acc.2)) (false, memo)).1,
        memoSet
          (r.foldl (fun acc c =>
            if acc.1 then acc
            else
              if 4 ≤ t + 1 then (evalPlacerWin (placeSums sums b c), acc.2)
              else
                (List.range 3).foldl (fun acc2 nextOff =>
                  if acc2.1 then
                    cfwMemoF fuel acc2.2 (placeSums sums b c)
                      (r.filter fun x => x ≠ c) (t + 1) nextOff
                  else acc2) (true, acc.2)) (false, memo)).2
          (stateKey sums r t b)
          ((r.foldl (fun acc c =>
            if acc.1 then acc
            else
              if 4 ≤ t + 1 then (evalPlacerWin (placeSums sums b c), acc.2)
              else
                (List.range 3).foldl (fun acc2 nextOff =>
                  if acc2.1 then
                    cfwMemoF fuel acc2.2 (placeSums sums b c)
                      (r.filter fun x => x ≠ c) (t + 1) nextOff
                  else acc2) (true, acc.2)) (false, memo)).1)) := by
  have hremb : r.isEmpty = false := by
    cases r
    · exact absurd rfl hne
    · rfl
  simp only [cfwMemoF, hfind, hremb]
  rfl

theorem cfwMemoF_ok :
    ∀ (fuel : Nat) (memo : Memo) (sums r : List Nat) (t b : Nat),
      sums.length = 3 → (∀ c ∈ r, 1 ≤ c) → r.length ≤ fuel → MemoAccurate memo →
      (cfwMemoF fuel memo sums r t b).1 = canForceWinGivenOffer sums r t b ∧
      MemoAccurate (cfwMemoF fuel memo sums r t b).2 := by
  intro fuel
  induction fuel with
  | zero =>
    intro memo sums r t b hs hr hlen hm
    have hr0 : r = [] := List.length_eq_zero.mp (Nat.le_zero.mp hlen)
    subst hr0
    cases hfind : memoFind memo (stateKey sums [] t b) with
    | some bv =>
      rw [cfwMemoF_hit 0 memo sums [] t b bv hfind]
      exact ⟨hm sums [] t b bv hs (fun c hc => absurd hc (List.not_mem_nil c)) hfind, hm⟩
    | none =>
      rw [cfwMemoF_miss_nil 0 memo sums t b hfind]
      constructor
      · exact (canForceWin_nil_eval sums t b).symm
      · have hval : evalPlacerWin sums = canForceWinGivenOffer sums [] t b :=
          (canForceWin_nil_eval sums t b).symm
        rw [hval]
        exact memoAccurate_set hm sums [] t b hs fun c hc => absurd hc (List.not_mem_nil c)
  | succ fuel ih =>
    intro memo sums r t b hs hr hlen hm
    cases hfind : memoFind memo (stateKey sums r t b) with
    | some bv =>
      rw [cfwMemoF_hit (fuel + 1) memo sums r t b bv hfind]
      exact ⟨hm sums r t b bv hs hr hfind, hm⟩
    | none =>
      by_cases hne : r = []
      · subst hne
        rw [cfwMemoF_miss_nil (fuel + 1) memo sums t b hfind]
        constructor
        · exact (canForceWin_nil_eval sums t b).symm
        · have hval : evalPlacerWin sums = canForceWinGivenOffer sums [] t b :=
            (canForceWin_nil_eval sums t b).symm
          rw [hval]
          exact memoAccurate_set hm sums [] t b hs fun c hc => absurd hc (List.not_mem_nil c)
      · rw [cfwMemoF_succ_miss fuel memo sums r t b hfind hne]
        have hplen : ∀ c : Nat, (placeSums sums b c).length = 3 := by
          intro c
          unfold placeSums
          rw [List.length_set]
          exact hs
        have hfcoins : ∀ c : Nat, ∀ x ∈ r.filter fun x => x ≠ c, 1 ≤ x :=
          fun c x hx => hr x (List.mem_filter.mp hx).1
        have hflen : ∀ c ∈ r, (r.filter fun x => x ≠ c).length ≤ fuel := by
          intro c hc
          have := length_filter_ne_lt hc
          omega
        have hstep : ∀ (m : Memo) (a : Nat), a ∈ r → MemoAccurate m →
            ((fun (acc : Bool × Memo) c =>
              if acc.1 then acc
              else
                if 4 ≤ t + 1 then (evalPlacerWin (placeSums sums b c), acc.2)
                else
                  (List.range 3).foldl (fun acc2 nextOff =>
                    if acc2.1 then
                      cfwMemoF fuel acc2.2 (placeSums sums b c)
                        (r.filter fun x => x ≠ c) (t + 1) nextOff
                    else acc2) (true, acc.2)) (false, m) a).1 =
              forcingCoinB sums r t b a ∧
            MemoAccurate (((fun (acc : Bool × Memo) c =>
              if acc.1 then acc
              else
                if 4 ≤ t + 1 then (evalPlacerWin (placeSums sums b c), acc.2)
                else
                  (List.range 3).foldl (fun acc2 nextOff =>
                    if acc2.1 then
                      cfwMemoF fuel acc2.2 (placeSums sums b c)
                        (r.filter fun x => x ≠ c) (t + 1) nextOff
                    else acc2) (true, acc.2)) (false, m) a).2) := by
          intro m a ha hPm
          have hred : ((fun (acc : Bool × Memo) c =>
              if acc.1 then acc
              else
                if 4 ≤ t + 1 then (evalPlacerWin (placeSums sums b c), acc.2)
                else
                  (List.range 3).foldl (fun acc2 nextOff =>
                    if acc2.1 then
                      cfwMemoF fuel acc2.2 (placeSums sums b c)
                        (r.filter fun x => x ≠ c) (t + 1) nextOff
                    else acc2) (true, acc.2)) (false, m) a) =
              (if 4 ≤ t + 1 then (evalPlacerWin (placeSums sums b a), m)
               else
                 (List.range 3).foldl (fun acc2 nextOff =>
                   if acc2.1 then
                     cfwMemoF fuel acc2.2 (placeSums sums b a)
                       (r.filter fun x => x ≠ a) (t + 1) nextOff
                   else acc2) (true, m)) := rfl
          rw [hred]
          by_cases h4 : 4 ≤ t + 1
          · rw [if_pos h4]
            constructor
            · simp only [forcingCoinB]
              rw [if_pos h4]
            · exact hPm
          · rw [if_neg h4]
            obtain ⟨hi1, hi2⟩ := foldl_and_scan MemoAccurate
              (fun nextOff => canForceWinGivenOffer (placeSums sums b a)
                (r.filter fun x => x ≠ a) (t + 1) nextOff)
              (fun acc2 nextOff =>
                if acc2.1 then
                  cfwMemoF fuel acc2.2 (placeSums sums b a)
                    (r.filter fun x => x ≠ a) (t + 1) nextOff
                else acc2)
              (List.range 3)
              (fun m2 x _ => rfl)
              (fun m2 x _ hP2 => ih m2 (placeSums sums b a)
                (r.filter fun x2 => x2 ≠ a) (t + 1) x (hplen a) (hfcoins a)
                (hflen a ha) hP2)
              (true, m) hPm
            constructor
            · rw [hi1]
              simp only [forcingCoinB]
              rw [if_neg h4, Bool.true_and]
            · exact hi2
        obtain ⟨hs1, hs2⟩ := foldl_or_scan MemoAccurate (forcingCoinB sums r t b)
          (fun (acc : Bool × Memo) c =>
            if acc.1 then acc
            else
              if 4 ≤ t + 1 then (evalPlacerWin (placeSums sums b c), acc.2)
              else
                (List.range 3).foldl (fun acc2 nextOff =>
                  if acc2.1 then
                    cfwMemoF fuel acc2.2 (placeSums sums b c)
                      (r.filter fun x => x ≠ c) (t + 1) nextOff
                  else acc2) (true, acc.2)) r
          (fun m a _ => rfl) hstep (false, memo) hm
        have hval := hs1.trans (by rw [Bool.false_or, ← canForceWin_any sums r t b hne])
        constructor
        · exact hval
        · rw [hval]
          exact memoAccurate_set hs2 sums r t b hs hr

theorem canForceWinMemo_ok (memo : Memo) (sums r : List Nat) (t b : Nat)
    (hs : sums.length = 3) (hr : ∀ c ∈ r, 1 ≤ c) (hm : MemoAccurate memo) :
    (canForceWinMemo memo sums r t b).1 = canForceWinGivenOffer sums r t b ∧
    MemoAccurate (canForceWinMemo memo sums r t b).2 :=
  cfwMemoF_ok r.length memo sums r t b hs hr le_rfl hm

theorem aiChooseMemo_ok (memo : Memo) (sums r : List Nat) (t b : Nat)
    (hs : sums.length = 3) (hr : ∀ c ∈ r, 1 ≤ c) (hm : MemoAccurate memo) :
    (aiChooseMemo memo sums r t b).1 = aiChooseCoinForOffer sums r t b ∧
    MemoAccurate (aiChooseMemo memo sums r t b).2 := by
  have hplen : ∀ c : Nat, (placeSums sums b c).length = 3 := by
    intro c
    unfold placeSums
    rw [List.length_set]
    exact hs
  have hfcoins : ∀ c : Nat, ∀ x ∈ r.filter fun x => x ≠ c, 1 ≤ x :=
    fun c x hx => hr x (List.mem_filter.mp hx).1
  have hstep : ∀ (m : Memo) (a : Nat), a ∈ r → MemoAccurate m →
      ((fun (acc : Option Nat × Memo) c =>
        match acc.1 with
        | some chosen => (some chosen, acc.2)
        | none =>
          if 4 ≤ t + 1 then
            (if evalPlacerWin (placeSums sums b c) then some c else none, acc.2)
          else
            (if ((List.range 3).foldl (fun (acc2 : Bool × Memo) nextOff =>
                if acc2.1 then
                  canForceWinMemo acc2.2 (placeSums sums b c)
                    (r.filter fun x => x ≠ c) (t + 1) nextOff
                else acc2) (true, acc.2)).1 then some c else none,
              ((List.range 3).foldl (fun (acc2 : Bool × Memo) nextOff =>
                if acc2.1 then
                  canForceWinMemo acc2.2 (placeSums sums b c)
                    (r.filter fun x => x ≠ c) (t + 1) nextOff
                else acc2) (true, acc.2)).2)) (none, m) a).1 =
        (if forcingCoinB sums r t b a then some a else none) ∧
      MemoAccurate (((fun (acc : Option Nat × Memo) c =>
        match acc.1 with
        | some chosen => (some chosen, acc.2)
        | none =>
          if 4 ≤ t + 1 then
            (if evalPlacerWin (placeSums sums b c) then some c else none, acc.2)
          else
            (if ((List.range 3).foldl (fun (acc2 : Bool × Memo) nextOff =>
                if acc2.1 then
                  canForceWinMemo acc2.2 (placeSums sums b c)
                    (r.filter fun x => x ≠ c) (t + 1) nextOff
                else acc2) (true, acc.2)).1 then some c else none,
              ((List.range 3).foldl (fun (acc2 : Bool × Memo) nextOff =>
                if acc2.1 then
                  canForceWinMemo acc2.2 (placeSums sums b c)
                    (r.filter fun x => x ≠ c) (t + 1) nextOff
                else acc2) (true, acc.2)).2)) (none, m) a).2) := by
    intro m a ha hPm
    have hred : ((fun (acc : Option Nat × Memo) c =>
        match acc.1 with
        | some chosen => (some chosen, acc.2)
        | none =>
          if 4 ≤ t + 1 then
            (if evalPlacerWin (placeSums sums b c) then some c else none, acc.2)
          else
            (if ((List.range 3).foldl (fun (acc2 : Bool × Memo) nextOff =>
                if acc2.1 then
                  canForceWinMemo acc2.2 (placeSums sums b c)
                    (r.filter fun x => x ≠ c) (t + 1) nextOff
                else acc2) (true, acc.2)).1 then some c else none,
              ((List.range 3).foldl (fun (acc2 : Bool × Memo) nextOff =>
                if acc2.1 then
                  canForceWinMemo acc2.2 (placeSums sums b c)
                    (r.filter fun x => x ≠ c) (t + 1) nextOff
                else acc2) (true, acc.2)).2)) (none, m) a) =
        (if 4 ≤ t + 1 then
          (if evalPlacerWin (placeSums sums b a) then some a else none, m)
         else
          (if ((List.range 3).foldl (fun (acc2 : Bool × Memo) nextOff =>
              if acc2.1 then
                canForceWinMemo acc2.2 (placeSums sums b a)
                  (r.filter fun x => x ≠ a) (t + 1) nextOff
              else acc2) (true, m)).1 then some a else none,
            ((List.range 3).foldl (fun (acc2 : Bool × Memo) nextOff =>
              if acc2.1 then
                canForceWinMemo acc2.2 (placeSums sums b a)
                  (r.filter fun x => x ≠ a) (t + 1) nextOff
              else acc2) (true, m)).2)) := rfl
    rw [hred]
    by_cases h4 : 4 ≤ t + 1
    · rw [if_pos h4]
      have hforc : forcingCoinB sums r t b a = evalPlacerWin (placeSums sums b a) := by
        simp only [forcingCoinB]
        rw [if_pos h4]
      exact ⟨by rw [hforc], hPm⟩
    · rw [if_neg h4]
      obtain ⟨hi1, hi2⟩ := foldl_and_scan MemoAccurate
        (fun nextOff => canForceWinGivenOffer (placeSums sums b a)
          (r.filter fun x => x ≠ a) (t + 1) nextOff)
        (fun (acc2 : Bool × Memo) nextOff =>
          if acc2.1 then
            canForceWinMemo acc2.2 (placeSums sums b a)
              (r.filter fun x => x ≠ a) (t + 1) nextOff
          else acc2)
        (List.range 3)
        (fun m2 x _ => rfl)
        (fun m2 x _ hP2 => canForceWinMemo_ok m2 (placeSums sums b a)
          (r.filter fun x2 => x2 ≠ a) (t + 1) x (hplen a) (hfcoins a) hP2)
        (true, m) hPm
    
      have hforc : forcingCoinB sums r t b a =
          (List.range 3).all fun nextOff =>
            canForceWinGivenOffer (placeSums sums b a)
              (r.filter fun x => x ≠ a) (t + 1) nextOff := by
        simp only [forcingCoinB]
        rw [if_neg h4]
      constructor
      · rw [hi1, Bool.true_and, ← hforc]
      · exact hi2
  obtain ⟨hscanA, hscanB⟩ := foldl_find_scan MemoAccurate (forcingCoinB sums r t b)
    (fun (acc : Option Nat × Memo) c =>
      match acc.1 with
      | some chosen => (some chosen, acc.2)
      | none =>
        if 4 ≤ t + 1 then
          (if evalPlacerWin (placeSums sums b c) then some c else none, acc.2)
        else
          (if ((List.range 3).foldl (fun (acc2 : Bool × Memo) nextOff =>
              if acc2.1 then
                canForceWinMemo acc2.2 (placeSums sums b c)
                  (r.filter fun x => x ≠ c) (t + 1) nextOff
              else acc2) (true, acc.2)).1 then some c else none,
            ((List.range 3).foldl (fun (acc2 : Bool × Memo) nextOff =>
              if acc2.1 then
                canForceWinMemo acc2.2 (placeSums sums b c)
                  (r.filter fun x => x ≠ c) (t + 1) nextOff
              else acc2) (true, acc.2)).2)) r
    (fun m x a _ => rfl) hstep ((none : Option Nat), memo) hm
  have hscan1 : (r.foldl (fun (acc : Option Nat × Memo) c =>
      match acc.1 with
      | some chosen => (some chosen, acc.2)
      | none =>
        if 4 ≤ t + 1 then
          (if evalPlacerWin (placeSums sums b c) then some c else none, acc.2)
        else
          (if ((List.range 3).foldl (fun (acc2 : Bool × Memo) nextOff =>
              if acc2.1 then
                canForceWinMemo acc2.2 (placeSums sums b c)
                  (r.filter fun x => x ≠ c) (t + 1) nextOff
              else acc2) (true, acc.2)).1 then some c else none,
            ((List.range 3).foldl (fun (acc2 : Bool × Memo) nextOff =>
              if acc2.1 then
                canForceWinMemo acc2.2 (placeSums sums b c)
                  (r.filter fun x => x ≠ c) (t + 1) nextOff
              else acc2) (true, acc.2)).2)) ((none : Option Nat), memo)).1 =
      r.find? (forcingCoinB sums r t b) := hscanA
  cases hf : r.find? (forcingCoinB sums r t b) with
  | some c =>
    rw [hf] at hscan1
    constructor
    · show (aiChooseMemo memo sums r t b).1 = _
      simp only [aiChooseMemo]
      rw [hscan1]
      simp only [aiChooseCoinForOffer]
      rw [hf]
    · show MemoAccurate (aiChooseMemo memo sums r t b).2
      simp only [aiChooseMemo]
      rw [hscan1]
      exact hscanB
  | none =>
    rw [hf] at hscan1
    constructor
    · show (aiChooseMemo memo sums r t b).1 = _
      simp only [aiChooseMemo]
      rw [hscan1]
      simp only [aiChooseCoinForOffer]
      rw [hf]
    · show MemoAccurate (aiChooseMemo memo sums r t b).2
      simp only [aiChooseMemo]
      rw [hscan1]
      exact hscanB

/-- C5: on any data-model input (length-3 sums, coin values ≥ 1) and any
accurate cache — the empty cache (`MemoAccurate []`, i.e. a freshly
cleared cache) and, inductively, every cache produced by earlier calls,
since accuracy is preserved — the memoized solver and memoized chooser
return exactly the pure functions of `(sums, remaining, turn,
basketIndex)`, and leave the cache accurate.  Hence two calls with equal
inputs agree regardless of call order or cache state, and clearing the
cache never changes any result. -/
theorem solver_memo_transparent (memo : Memo) (sums r : List Nat) (t b : Nat)
    (hs : sums.length = 3) (hr : ∀ c ∈ r, 1 ≤ c) (hm : MemoAccurate memo) :
    (canForceWinMemo memo sums r t b).1 = canForceWinGivenOffer sums r t b ∧
    MemoAccurate (canForceWinMemo memo sums r t b).2 ∧
    (aiChooseMemo memo sums r t b).1 = aiChooseCoinForOffer sums r t b ∧
    MemoAccurate (aiChooseMemo memo sums r t b).2 ∧
    MemoAccurate ([] : Memo) :=
  ⟨(canForceWinMemo_ok memo sums r t b hs hr hm).1,
    (canForceWinMemo_ok memo sums r t b hs hr hm).2,
    (aiChooseMemo_ok memo sums r t b hs hr hm).1,
    (aiChooseMemo_ok memo sums r t b hs hr hm).2,
    memoAccurate_nil⟩

/-- Witness for C5 at the opening state with an empty (cleared) cache. -/
theorem solver_memo_transparent_witness :
    ([0, 0, 0] : List Nat).length = 3 ∧ (∀ c ∈ ([1, 2, 3, 4] : List Nat), 1 ≤ c) ∧
    MemoAccurate ([] : Memo) ∧
    ((canForceWinMemo [] [0, 0, 0] [1, 2, 3, 4] 0 0).1 =
        canForceWinGivenOffer [0, 0, 0] [1, 2, 3, 4] 0 0 ∧
      MemoAccurate (canForceWinMemo [] [0, 0, 0] [1, 2, 3, 4] 0 0).2 ∧
      (aiChooseMemo [] [0, 0, 0] [1, 2, 3, 4] 0 0).1 =
        aiChooseCoinForOffer [0, 0, 0] [1, 2, 3, 4] 0 0 ∧
      MemoAccurate (aiChooseMemo [] [0, 0, 0] [1, 2, 3, 4] 0 0).2 ∧
      MemoAccurate ([] : Memo)) :=
  ⟨by decide, by decide, memoAccurate_nil,
    solver_memo_transparent [] [0, 0, 0] [1, 2, 3, 4] 0 0 (by decide) (by decide)
      memoAccurate_nil⟩

/-! ## Claim C10 -/

theorem store_preserves_refl (σ : Store) : σ.Preserves σ :=
  ⟨le_rfl, fun _ _ => rfl⟩

theorem store_preserves_trans {σ3 σ2 σ1 : Store}
    (h32 : σ3.Preserves σ2) (h21 : σ2.Preserves σ1) : σ3.Preserves σ1 := by
  obtain ⟨hl32, hr32⟩ := h32
  obtain ⟨hl21, hr21⟩ := h21
  exact ⟨le_trans hl21 hl32,
    fun i hi => (hr32 i (lt_of_lt_of_le hi hl21)).trans (hr21 i hi)⟩

theorem store_alloc_length (σ : Store) (v : List Nat) :
    (σ.alloc v).1.arrs.length = σ.arrs.length + 1 := by
  unfold Store.alloc
  simp

theorem store_alloc_preserves (σ : Store) (v : List Nat) :
    (σ.alloc v).1.Preserves σ := by
  constructor
  · rw [store_alloc_length]
    omega
  · intro i hi
    unfold Store.alloc Store.read
    simp only
    exact List.getD_append _ _ _ _ hi

theorem store_alloc_read_new (σ : Store) (v : List Nat) :
    (σ.alloc v).1.read (σ.alloc v).2 = v := by
  unfold Store.alloc Store.read
  simp only
  rw [List.getD_eq_getElem?_getD, List.getElem?_append]
  simp

theorem store_write_length (σ : Store) (i : Nat) (v : List Nat) :
    (σ.write i v).arrs.length = σ.arrs.length := by
  unfold Store.write
  simp

theorem store_write_read (σ : Store) (i : Nat) (v : List Nat)
    (h : i < σ.arrs.length) :
    (σ.write i v).read i = v := by
  unfold Store.write Store.read
  simp only
  rw [List.getD_eq_getElem?_getD, List.getElem?_set_self h]
  rfl

theorem store_write_high_preserves {σ2 σ1 : Store} (i : Nat) (v : List Nat)
    (h : σ2.Preserves σ1) (hi : σ1.arrs.length ≤ i) :
    (σ2.write i v).Preserves σ1 := by
  obtain ⟨hl, hr⟩ := h
  constructor
  · rw [store_write_length]
    exact hl
  · intro j hj
    have hij : i ≠ j := by omega
    have hread : (σ2.write i v).read j = σ2.read j := by
      unfold Store.write Store.read
      simp only
      rw [List.getD_eq_getElem?_getD, List.getElem?_set_ne hij,
        ← List.getD_eq_getElem?_getD]
    rw [hread]
    exact hr j hj

theorem foldl_preserve {γ α : Type} (Q : γ → Prop) (step : γ → α → γ) :
    ∀ l : List α, (∀ acc a, a ∈ l → Q acc → Q (step acc a)) →
      ∀ acc, Q acc → Q (l.foldl step acc) := by
  intro l
  induction l with
  | nil => intro _ acc h; exact h
  | cons a l ih =>
    intro hstep acc hQ
    simp only [List.foldl_cons]
    exact ih (fun acc2 x hx h2 => hstep acc2 x (List.mem_cons_of_mem a hx) h2)
      (step acc a) (hstep acc a (List.mem_cons_self a l) hQ)

theorem storePlaceAux_preserves (σ0 : Store) (sumsId remId offeredIdx c : Nat) :
    (storePlaceAux σ0 sumsId remId offeredIdx c).1.Preserves σ0 := by
  simp only [storePlaceAux]
  exact store_preserves_trans (store_alloc_preserves _ _)
    (store_write_high_preserves _ _ (store_alloc_preserves _ _) le_rfl)

theorem storePlaceAux_length (σ0 : Store) (sumsId remId offeredIdx c : Nat) :
    (storePlaceAux σ0 sumsId remId offeredIdx c).1.arrs.length =
      σ0.arrs.length + 2 := by
  simp only [storePlaceAux]
  rw [store_alloc_length, store_write_length, store_alloc_length]

theorem storePlaceAux_ids (σ0 : Store) (sumsId remId offeredIdx c : Nat) :
    (storePlaceAux σ0 sumsId remId offeredIdx c).2.1 = σ0.arrs.length ∧
    (storePlaceAux σ0 sumsId remId offeredIdx c).2.2 = σ0.arrs.length + 1 := by
  simp only [storePlaceAux]
    
  constructor
  · rfl
  · show ((σ0.alloc (σ0.read sumsId)).1.write _ _).arrs.length = σ0.arrs.length + 1
    rw [store_write_length, store_alloc_length]

theorem storePlaceAux_read_ns (σ0 : Store) (sumsId remId b c : Nat) :
    (storePlaceAux σ0 sumsId remId b c).1.read
      (storePlaceAux σ0 sumsId remId b c).2.1 =
    placeSums (σ0.read sumsId) b c := by
  simp only [storePlaceAux]
  have hlt : (σ0.alloc (σ0.read sumsId)).2 <
      (((σ0.alloc (σ0.read sumsId)).1.write (σ0.alloc (σ0.read sumsId)).2
        (((σ0.alloc (σ0.read sumsId)).1.read (σ0.alloc (σ0.read sumsId)).2).set b
          (((σ0.alloc (σ0.read sumsId)).1.read
            (σ0.alloc (σ0.read sumsId)).2).getD b 0 + c))).arrs.length) := by
    rw [store_write_length, store_alloc_length]
    show σ0.arrs.length < σ0.arrs.length + 1
    omega
  rw [(store_alloc_preserves _ _).2 _ hlt]
  rw [store_write_read _ _ _ (by
    rw [store_alloc_length]
    show σ0.arrs.length < σ0.arrs.length + 1
    omega)]
  rw [store_alloc_read_new]
  rfl

theorem storePlaceAux_read_nr (σ0 : Store) (sumsId remId b c : Nat)
    (h2 : remId < σ0.arrs.length) :
    (storePlaceAux σ0 sumsId remId b c).1.read
      (storePlaceAux σ0 sumsId remId b c).2.2 =
    (σ0.read remId).filter fun x => x ≠ c := by
  simp only [storePlaceAux]
  rw [store_alloc_read_new]
  have hpres : (((σ0.alloc (σ0.read sumsId)).1.write (σ0.alloc (σ0.read sumsId)).2
      (((σ0.alloc (σ0.read sumsId)).1.read (σ0.alloc (σ0.read sumsId)).2).set b
        (((σ0.alloc (σ0.read sumsId)).1.read
          (σ0.alloc (σ0.read sumsId)).2).getD b 0 + c)))).Preserves σ0 :=
    store_write_high_preserves _ _ (store_alloc_preserves _ _) le_rfl
  rw [hpres.2 remId h2]

theorem cfwStore_nil (fuel : Nat) (σ : Store) (sumsId remId t b : Nat)
    (he : (σ.read remId).isEmpty = true) :
    cfwStore fuel σ sumsId remId t b =
      (evalPlacerWin (σ.read sumsId), (σ.alloc (sortDesc (σ.read sumsId))).1) := by
  cases fuel <;> simp [cfwStore, he]

theorem cfwStore_zero_cons (σ : Store) (sumsId remId t b : Nat)
    (he : (σ.read remId).isEmpty = false) :
    cfwStore 0 σ sumsId remId t b = (false, σ) := by
  simp [cfwStore, he]

theorem cfwStore_succ_cons (fuel : Nat) (σ : Store) (sumsId remId t b : Nat)
    (he : (σ.read remId).isEmpty = false) :
    cfwStore (fuel + 1) σ sumsId remId t b =
      (σ.read remId).foldl
        (cfwStoreStep (cfwStore fuel) sumsId remId t b) (false, σ) := by
  simp only [cfwStore, he]
  rfl

theorem cfwStoreStep_skip (rec : Store → Nat → Nat → Nat → Nat → Bool × Store)
    (sumsId remId t b : Nat) (m : Store) (a : Nat) :
    cfwStoreStep rec sumsId remId t b (true, m) a = (true, m) := rfl

theorem cfwStoreStep_run (rec : Store → Nat → Nat → Nat → Nat → Bool × Store)
    (sumsId remId t b : Nat) (m : Store) (a : Nat) :
    cfwStoreStep rec sumsId remId t b (false, m) a =
      (if 4 ≤ t + 1 then
        (evalPlacerWin ((storePlaceAux m sumsId remId b a).1.read
            (storePlaceAux m sumsId remId b a).2.1),
          ((storePlaceAux m sumsId remId b a).1.alloc
            (sortDesc ((storePlaceAux m sumsId remId b a).1.read
              (storePlaceAux m sumsId remId b a).2.1))).1)
       else
        (List.range 3).foldl (fun acc2 nextOff =>
          if acc2.1 then
            rec acc2.2 (storePlaceAux m sumsId remId b a).2.1
              (storePlaceAux m sumsId remId b a).2.2 (t + 1) nextOff
          else acc2) (true, (storePlaceAux m sumsId remId b a).1)) := rfl

theorem cfwStoreStep_preserves
    (rec : Store → Nat → Nat → Nat → Nat → Bool × Store)
    (hrec : ∀ σ2 i j t2 b2, (rec σ2 i j t2 b2).2.Preserves σ2)
    (sumsId remId t b : Nat) (σ : Store) :
    ∀ (acc : Bool × Store) (a : Nat), acc.2.Preserves σ →
      (cfwStoreStep rec sumsId remId t b acc a).2.Preserves σ := by
  intro acc a hQ
  rcases acc with ⟨flag, m⟩
  cases flag
  · rw [cfwStoreStep_run]
    by_cases h4 : 4 ≤ t + 1
    · rw [if_pos h4]
      exact store_preserves_trans
        (store_preserves_trans (store_alloc_preserves _ _)
          (storePlaceAux_preserves _ _ _ _ _)) hQ
    · rw [if_neg h4]
      refine foldl_preserve (fun acc2 : Bool × Store => acc2.2.Preserves σ) _
        (List.range 3) ?_ _
        (store_preserves_trans (storePlaceAux_preserves _ _ _ _ _) hQ)
      intro acc2 x _ hQ2
      rcases acc2 with ⟨fl2, m2⟩
      cases fl2
      · exact hQ2
      · exact store_preserves_trans (hrec m2 _ _ _ _) hQ2
  · rw [cfwStoreStep_skip]
    exact hQ

theorem cfwStore_preserves :
    ∀ (fuel : Nat) (σ : Store) (sumsId remId t b : Nat),
      (cfwStore fuel σ sumsId remId t b).2.Preserves σ := by
  intro fuel
  induction fuel with
  | zero =>
    intro σ sumsId remId t b
    cases he : (σ.read remId).isEmpty with
    | true =>
      rw [cfwStore_nil 0 σ sumsId remId t b he]
      exact store_alloc_preserves σ _
    | false =>
      rw [cfwStore_zero_cons σ sumsId remId t b he]
      exact store_preserves_refl σ
  | succ fuel ih =>
    intro σ sumsId remId t b
    cases he : (σ.read remId).isEmpty with
    | true =>
      rw [cfwStore_nil (fuel + 1) σ sumsId remId t b he]
      exact store_alloc_preserves σ _
    | false =>
      rw [cfwStore_succ_cons fuel σ sumsId remId t b he]
      exact foldl_preserve (fun acc : Bool × Store => acc.2.Preserves σ) _
        (σ.read remId)
        (fun acc x _ hQ =>
          cfwStoreStep_preserves (cfwStore fuel)
            (fun σ2 i j t2 b2 => ih σ2 i j t2 b2) sumsId remId t b σ acc x hQ)
        (false, σ) (store_preserves_refl σ)

theorem aiChooseStoreStep_preserves
    (rec : Store → Nat → Nat → Nat → Nat → Bool × Store)
    (hrec : ∀ σ2 i j t2 b2, (rec σ2 i j t2 b2).2.Preserves σ2)
    (sumsId remId t b : Nat) (σ : Store) :
    ∀ (acc : Option Nat × Store) (a : Nat), acc.2.Preserves σ →
      (aiChooseStoreStep rec sumsId remId t b acc a).2.Preserves σ := by
  intro acc a hQ
  rcases acc with ⟨o, m⟩
  cases o with
  | some chosen => exact hQ
  | none =>
    show ((aiChooseStoreStep rec sumsId remId t b (none, m) a).2).Preserves σ
    have hrun : aiChooseStoreStep rec sumsId remId t b (none, m) a =
        (if 4 ≤ t + 1 then
          (if evalPlacerWin ((storePlaceAux m sumsId remId b a).1.read
              (storePlaceAux m sumsId remId b a).2.1) then some a else none,
            ((storePlaceAux m sumsId remId b a).1.alloc
              (sortDesc ((storePlaceAux m sumsId remId b a).1.read
                (storePlaceAux m sumsId remId b a).2.1))).1)
         else
          (if ((List.range 3).foldl (fun acc2 nextOff =>
              if acc2.1 then
                rec acc2.2 (storePlaceAux m sumsId remId b a).2.1
                  (storePlaceAux m sumsId remId b a).2.2 (t + 1) nextOff
              else acc2) (true, (storePlaceAux m sumsId remId b a).1)).1
            then some a else none,
            ((List.range 3).foldl (fun acc2 nextOff =>
              if acc2.1 then
                rec acc2.2 (storePlaceAux m sumsId remId b a).2.1
                  (storePlaceAux m sumsId remId b a).2.2 (t + 1) nextOff
              else acc2) (true, (storePlaceAux m sumsId remId b a).1)).2)) := rfl
    rw [hrun]
    by_cases h4 : 4 ≤ t + 1
    · rw [if_pos h4]
      exact store_preserves_trans
        (store_preserves_trans (store_alloc_preserves _ _)
          (storePlaceAux_preserves _ _ _ _ _)) hQ
    · rw [if_neg h4]
      show ((List.range 3).foldl _ (true, (storePlaceAux m sumsId remId b a).1)).2.Preserves σ
      refine foldl_preserve (fun acc2 : Bool × Store => acc2.2.Preserves σ) _
        (List.range 3) ?_ _
        (store_preserves_trans (storePlaceAux_preserves _ _ _ _ _) hQ)
      intro acc2 x _ hQ2
      rcases acc2 with ⟨fl2, m2⟩
      cases fl2
      · exact hQ2
      · exact store_preserves_trans (hrec m2 _ _ _ _) hQ2

theorem aiChooseStore_preserves (fuel : Nat) (σ : Store) (sumsId remId t b : Nat) :
    (aiChooseStore fuel σ sumsId remId t b).2.Preserves σ := by
  have hscan : ((σ.read remId).foldl
      (aiChooseStoreStep (cfwStore fuel) sumsId remId t b)
      ((none : Option Nat), σ)).2.Preserves σ :=
    foldl_preserve (fun acc : Option Nat × Store => acc.2.Preserves σ) _
      (σ.read remId)
      (fun acc x _ hQ =>
        aiChooseStoreStep_preserves (cfwStore fuel)
          (fun σ2 i j t2 b2 => cfwStore_preserves fuel σ2 i j t2 b2)
          sumsId remId t b σ acc x hQ)
      ((none : Option Nat), σ) (store_preserves_refl σ)
  unfold aiChooseStore
  cases hsc : ((σ.read remId).foldl
      (aiChooseStoreStep (cfwStore fuel) sumsId remId t b)
      ((none : Option Nat), σ)).1 with
  | some c =>
    simp only [hsc]
    exact hscan
  | none =>
    simp only [hsc]
    exact hscan

theorem cfwStoreStep_correct
    (rec : Store → Nat → Nat → Nat → Nat → Bool × Store)
    (pureRec : List Nat → List Nat → Nat → Nat → Bool)
    (hrecP : ∀ σ2 i j t2 b2, (rec σ2 i j t2 b2).2.Preserves σ2)
    (hrecC : ∀ σ2 i j t2 b2, i < σ2.arrs.length → j < σ2.arrs.length →
      (rec σ2 i j t2 b2).1 = pureRec (σ2.read i) (σ2.read j) t2 b2)
    (σ : Store) (sumsId remId t b : Nat)
    (h1 : sumsId < σ.arrs.length) (h2 : remId < σ.arrs.length) :
    ∀ (m : Store) (a : Nat), m.Preserves σ →
      (cfwStoreStep rec sumsId remId t b (false, m) a).1 =
        (if 4 ≤ t + 1 then evalPlacerWin (placeSums (σ.read sumsId) b a)
         else (List.range 3).all fun nextOff =>
           pureRec (placeSums (σ.read sumsId) b a)
             ((σ.read remId).filter fun x => x ≠ a) (t + 1) nextOff) := by
  intro m a hm
  have hms : m.read sumsId = σ.read sumsId := hm.2 sumsId h1
  have hmr : m.read remId = σ.read remId := hm.2 remId h2
  have hrs : (storePlaceAux m sumsId remId b a).1.read
      (storePlaceAux m sumsId remId b a).2.1 = placeSums (σ.read sumsId) b a := by
    rw [storePlaceAux_read_ns, hms]
  have hrr : (storePlaceAux m sumsId remId b a).1.read
      (storePlaceAux m sumsId remId b a).2.2 =
      (σ.read remId).filter fun x => x ≠ a := by
    rw [storePlaceAux_read_nr m sumsId remId b a (lt_of_lt_of_le h2 hm.1), hmr]
  have hids := storePlaceAux_ids m sumsId remId b a
  have hlenaux := storePlaceAux_length m sumsId remId b a
  rw [cfwStoreStep_run]
  by_cases h4 : 4 ≤ t + 1
  · rw [if_pos h4, if_pos h4]
    show evalPlacerWin ((storePlaceAux m sumsId remId b a).1.read
      (storePlaceAux m sumsId remId b a).2.1) = _
    rw [hrs]
  · rw [if_neg h4, if_neg h4]
    have hstep2 : ∀ (m2 : Store) (x : Nat), x ∈ List.range 3 →
        m2.Preserves (storePlaceAux m sumsId remId b a).1 →
        (((fun (acc2 : Bool × Store) nextOff =>
          if acc2.1 then
            rec acc2.2 (storePlaceAux m sumsId remId b a).2.1
              (storePlaceAux m sumsId remId b a).2.2 (t + 1) nextOff
          else acc2) (true, m2) x).1 =
          pureRec (placeSums (σ.read sumsId) b a)
            ((σ.read remId).filter fun x2 => x2 ≠ a) (t + 1) x) ∧
        (((fun (acc2 : Bool × Store) nextOff =>
          if acc2.1 then
            rec acc2.2 (storePlaceAux m sumsId remId b a).2.1
              (storePlaceAux m sumsId remId b a).2.2 (t + 1) nextOff
          else acc2) (true, m2) x).2).Preserves
            (storePlaceAux m sumsId remId b a).1 := by
      intro m2 x _ hP2
      have hid1lt : (storePlaceAux m sumsId remId b a).2.1 <
          (storePlaceAux m sumsId remId b a).1.arrs.length := by
        rw [hids.1, hlenaux]
        omega
      have hid2lt : (storePlaceAux m sumsId remId b a).2.2 <
          (storePlaceAux m sumsId remId b a).1.arrs.length := by
        rw [hids.2, hlenaux]
        omega
      have hid1lt2 : (storePlaceAux m sumsId remId b a).2.1 < m2.arrs.length :=
        lt_of_lt_of_le hid1lt hP2.1
      have hid2lt2 : (storePlaceAux m sumsId remId b a).2.2 < m2.arrs.length :=
        lt_of_lt_of_le hid2lt hP2.1
      constructor
      · show (rec m2 (storePlaceAux m sumsId remId b a).2.1
          (storePlaceAux m sumsId remId b a).2.2 (t + 1) x).1 = _
        rw [hrecC m2 _ _ (t + 1) x hid1lt2 hid2lt2]
        rw [hP2.2 _ hid1lt, hP2.2 _ hid2lt, hrs, hrr]
      · show ((rec m2 (storePlaceAux m sumsId remId b a).2.1
          (storePlaceAux m sumsId remId b a).2.2 (t + 1) x).2).Preserves _
        exact store_preserves_trans (hrecP m2 _ _ _ _) hP2
    obtain ⟨hi1, _⟩ := foldl_and_scan
      (fun σx : Store => σx.Preserves (storePlaceAux m sumsId remId b a).1)
      (fun nextOff => pureRec (placeSums (σ.read sumsId) b a)
        ((σ.read remId).filter fun x2 => x2 ≠ a) (t + 1) nextOff)
      (fun (acc2 : Bool × Store) nextOff =>
        if acc2.1 then
          rec acc2.2 (storePlaceAux m sumsId remId b a).2.1
            (storePlaceAux m sumsId remId b a).2.2 (t + 1) nextOff
        else acc2)
      (List.range 3)
      (fun m2 x _ => rfl)
      hstep2
      (true, (storePlaceAux m sumsId remId b a).1) (store_preserves_refl _)
    rw [hi1, Bool.true_and]

theorem cfwStore_correct :
    ∀ (fuel : Nat) (σ : Store) (sumsId remId t b : Nat),
      sumsId < σ.arrs.length → remId < σ.arrs.length →
      (cfwStore fuel σ sumsId remId t b).1 =
        canForceWinFuel fuel (σ.read sumsId) (σ.read remId) t b := by
  intro fuel
  induction fuel with
  | zero =>
    intro σ sumsId remId t b h1 h2
    cases he : (σ.read remId).isEmpty with
    | true =>
      rw [cfwStore_nil 0 σ sumsId remId t b he]
      simp [canForceWinFuel, he]
    | false =>
      rw [cfwStore_zero_cons σ sumsId remId t b he]
      simp [canForceWinFuel, he]
  | succ fuel ih =>
    intro σ sumsId remId t b h1 h2
    cases he : (σ.read remId).isEmpty with
    | true =>
      rw [cfwStore_nil (fuel + 1) σ sumsId remId t b he]
      simp [canForceWinFuel, he]
    | false =>
      rw [cfwStore_succ_cons fuel σ sumsId remId t b he]
      have hne : σ.read remId ≠ [] := by
        intro hh
        rw [hh] at he
        cases he
      rw [canForceWinFuel_succ_unfold fuel (σ.read sumsId) (σ.read remId) t b hne]
      obtain ⟨hs1, _⟩ := foldl_or_scan
        (fun σx : Store => σx.Preserves σ)
        (fun c => if 4 ≤ t + 1 then evalPlacerWin (placeSums (σ.read sumsId) b c)
          else (List.range 3).all fun nextOff =>
            canForceWinFuel fuel (placeSums (σ.read sumsId) b c)
              ((σ.read remId).filter fun x => x ≠ c) (t + 1) nextOff)
        (cfwStoreStep (cfwStore fuel) sumsId remId t b)
        (σ.read remId)
        (fun m a _ => cfwStoreStep_skip (cfwStore fuel) sumsId remId t b m a)
        (fun m a _ hP =>
          ⟨cfwStoreStep_correct (cfwStore fuel) (canForceWinFuel fuel)
            (cfwStore_preserves fuel)
            (fun σ2 i j t2 b2 hi hj => ih σ2 i j t2 b2 hi hj)
            σ sumsId remId t b h1 h2 m a hP,
          cfwStoreStep_preserves (cfwStore fuel) (cfwStore_preserves fuel)
            sumsId remId t b σ (false, m) a hP⟩)
        (false, σ) (store_preserves_refl σ)
      rw [hs1, Bool.false_or]

/-- C10: the solver and the chooser never mutate the caller's arrays:
run against an explicit array store in which `slice()`/`filter()`
allocate fresh ids and the single `+=` write targets the call's own
fresh copy, the final store still holds the caller's `sums` and
`remaining` arrays unchanged (and `turn`/`offeredIdx` are pass-by-value
numbers the callee cannot mutate).  The last conjunct checks the store
model computes exactly the pure solver's answer, so the frame statement
is about the real search, not a stub. -/
theorem solver_frame (fuel : Nat) (σ : Store) (sumsId remId t b : Nat)
    (h1 : sumsId < σ.arrs.length) (h2 : remId < σ.arrs.length) :
    (cfwStore fuel σ sumsId remId t b).2.read sumsId = σ.read sumsId ∧
    (cfwStore fuel σ sumsId remId t b).2.read remId = σ.read remId ∧
    (aiChooseStore fuel σ sumsId remId t b).2.read sumsId = σ.read sumsId ∧
    (aiChooseStore fuel σ sumsId remId t b).2.read remId = σ.read remId ∧
    (cfwStore fuel σ sumsId remId t b).1 =
      canForceWinFuel fuel (σ.read sumsId) (σ.read remId) t b :=
  ⟨(cfwStore_preserves fuel σ sumsId remId t b).2 sumsId h1,
    (cfwStore_preserves fuel σ sumsId remId t b).2 remId h2,
    (aiChooseStore_preserves fuel σ sumsId remId t b).2 sumsId h1,
    (aiChooseStore_preserves fuel σ sumsId remId t b).2 remId h2,
    cfwStore_correct fuel σ sumsId remId t b h1 h2⟩

/-- Witness for C10 on the opening state held in a two-array store. -/
theorem solver_frame_witness :
    (0 : Nat) < (Store.mk [[0, 0, 0], [1, 2, 3, 4]]).arrs.length ∧
    (1 : Nat) < (Store.mk [[0, 0, 0], [1, 2, 3, 4]]).arrs.length ∧
    ((cfwStore 4 (Store.mk [[0, 0, 0], [1, 2, 3, 4]]) 0 1 0 0).2.read 0 =
        (Store.mk [[0, 0, 0], [1, 2, 3, 4]]).read 0 ∧
      (cfwStore 4 (Store.mk [[0, 0, 0], [1, 2, 3, 4]]) 0 1 0 0).2.read 1 =
        (Store.mk [[0, 0, 0], [1, 2, 3, 4]]).read 1 ∧
      (aiChooseStore 4 (Store.mk [[0, 0, 0], [1, 2, 3, 4]]) 0 1 0 0).2.read 0 =
        (Store.mk [[0, 0, 0], [1, 2, 3, 4]]).read 0 ∧
      (aiChooseStore 4 (Store.mk [[0, 0, 0], [1, 2, 3, 4]]) 0 1 0 0).2.read 1 =
        (Store.mk [[0, 0, 0], [1, 2, 3, 4]]).read 1 ∧
      (cfwStore 4 (Store.mk [[0, 0, 0], [1, 2, 3, 4]]) 0 1 0 0).1 =
        canForceWinFuel 4 ((Store.mk [[0, 0, 0], [1, 2, 3, 4]]).read 0)
          ((Store.mk [[0, 0, 0], [1, 2, 3, 4]]).read 1) 0 0) :=
  ⟨by decide, by decide,
    solver_frame 4 (Store.mk [[0, 0, 0], [1, 2, 3, 4]]) 0 1 0 0 (by decide) (by decide)⟩
